import Mathlib

/-!
Verification of the text2tasks task-management backend.

This file gives a shallow embedding of the parts of the repository that the
claims are about:

* `src/src/services/task_hierarchy_service.py` (`TaskHierarchyService`):
  task creation, moving, descendants/ancestors, progress calculation;
* `src/src/services/resource_assignment_service.py`
  (`ResourceAssignmentService`): resource/task assignment edges and
  inherited resources;
* `src/src/services/contextual_qa_service.py` (`ContextualQAService`):
  context assembly for the `self` scope;
* `src/infrastructure/database/repositories/task_repository.py`
  (`TaskRepository`): task dependencies, the dependency graph and its
  cycle detection.

The database is modelled as explicit in-memory lists of rows; SQLAlchemy
queries become list lookups/filters that preserve row order.  The session
is created with `autoflush=False` (src/src/database.py line 16), so a
query issued after in-session attribute mutations still sees the values
from before those mutations; the embedding of `move_task` reflects this.
Python strings are sequences of characters, so path arithmetic
(`len(old_path)`, slicing, `LIKE 'p/%'` prefix tests) is modelled on
`String.data : List Char`.  Fields irrelevant to every claim (titles,
descriptions, owners, float similarity scores, timestamps that only feed
`ORDER BY`) are either dropped or kept abstract as stated at each
definition.
-/

/-- A row of the `tasks` table, restricted to the columns the hierarchy
logic reads and writes: `id`, `task_code`, `parent_task_id`, `task_level`,
`task_path`, `progress_percentage`. -/
structure HTask where
  id : Nat
  code : String
  parent : Option Nat
  level : Int
  path : String
  progress : Int
  deriving Repr, DecidableEq

/-- The `tasks` table: rows in insertion (primary key) order. -/
abbrev HState := List HTask

/-- `db.query(Task).filter(Task.id == task_id).first()`. -/
def findTask (s : HState) (tid : Nat) : Option HTask :=
  s.find? (fun t => t.id == tid)

/-- In-session mutation of the row with id `tid` (SQLAlchemy identity map:
  attribute assignment on the queried object, later flushed by `commit`). -/
def updateTask (s : HState) (tid : Nat) (f : HTask → HTask) : HState :=
  s.map (fun t => if t.id == tid then f t else t)

/-- `get_task_children`: `query(Task).filter(Task.parent_task_id == task_id)`. -/
def taskChildren (s : HState) (tid : Nat) : List HTask :=
  s.filter (fun t => t.parent == some tid)

/-- SQL `LIKE` matching on character lists: `'%'` matches any sequence,
  `'_'` matches any single character, everything else is literal; the
  match is anchored at both ends, as in SQL.  Fuel-bounded so that it
  kernel-reduces; every recursive call shrinks `pattern.length + s.length`,
  so fuel `pattern.length + s.length + 1` never runs out. -/
def sqlLikeAux : Nat → List Char → List Char → Bool
  | 0, _, _ => false
  | _ + 1, [], s => s.isEmpty
  | fuel + 1, c :: p, [] =>
    if c = '%' then sqlLikeAux fuel p [] else false
  | fuel + 1, c :: p, d :: s =>
    if c = '%' then sqlLikeAux fuel p (d :: s) || sqlLikeAux fuel (c :: p) s
    else (c == '_' || c == d) && sqlLikeAux fuel p s

/-- SQL `LIKE (p ++ "/%")` on paths, with genuine `%`/`_` wildcard
  semantics for metacharacters occurring inside `p` (the Python code
  interpolates the stored path into the pattern unescaped). -/
def likeSlashPrefix (p : String) (q : String) : Bool :=
  sqlLikeAux (p.data.length + q.data.length + 3) (p.data ++ ['/', '%']) q.data

/-- `get_task_descendants`: rows whose `task_path` is LIKE `task.path/%`. -/
def taskDescendants (s : HState) (tid : Nat) : List HTask :=
  match findTask s tid with
  | none => []
  | some task => s.filter (fun t => likeSlashPrefix task.path t.path)

/-- The character for a single decimal digit (only ever applied to
  `n < 10` or `n % 10`). -/
def pyDigitChar : Nat → Char
  | 0 => '0'
  | 1 => '1'
  | 2 => '2'
  | 3 => '3'
  | 4 => '4'
  | 5 => '5'
  | 6 => '6'
  | 7 => '7'
  | 8 => '8'
  | _ => '9'

/-- Digit extraction for `natChars`; the fuel argument only bounds the
  recursion (`n / 10 < n`), `n + 1` steps always suffice. -/
def natCharsAux : Nat → Nat → List Char
  | 0, _ => []
  | fuel + 1, n =>
    if n < 10 then [pyDigitChar n]
    else natCharsAux fuel (n / 10) ++ [pyDigitChar (n % 10)]

/-- The decimal digits of `n`, most significant first (Python `str(n)`/`d`
  formatting for non-negative ints). -/
def natChars (n : Nat) : List Char :=
  natCharsAux (n + 1) n

/-- Python `f"{n:03d}"` for a non-negative int: decimal digits left-padded
  with zeros to width at least 3. -/
def pyFormat03d (n : Nat) : String :=
  let ds := natChars n
  String.mk (List.replicate (3 - ds.length) '0' ++ ds)

/-- The task code generated by `create_task` when the caller supplies none:
  `SELECT COUNT(*) + 1 FROM tasks`, then `f"TASK-{result[0]:03d}"`. -/
def genTaskCode (s : HState) : String :=
  "TASK-" ++ pyFormat03d (s.length + 1)

/-- Autoincrement primary key for a fresh row. -/
def freshId (s : HState) : Nat :=
  (s.map (fun t => t.id)).foldr max 0 + 1

/-- `TaskHierarchyService.create_task` (the columns the claims read).
  Python's `if not task_code` treats both `None` and `""` as absent.
  Raised `ValidationException`s become `Except.error`. -/
def createTask (s : HState) (code? : Option String) (parent? : Option Nat) :
    Except String HState :=
  let code := match code? with
    | none => genTaskCode s
    | some c => if c = "" then genTaskCode s else c
  if (s.find? (fun t => t.code == code)).isSome then
    .error ("Task code " ++ code ++ " already exists")
  else
    match parent? with
    | none => .ok (s ++ [⟨freshId s, code, none, 0, code, 0⟩])
    | some pid =>
      match findTask s pid with
      | none => .error ("Parent task not found")
      | some p =>
        .ok (s ++ [⟨freshId s, code, some pid, p.level + 1,
                    p.path ++ "/" ++ code, 0⟩])

/-- Python slice `q[len(old):]` on a string, by characters. -/
def sliceFrom (q : String) (n : Nat) : String :=
  String.mk (q.data.drop n)

/-- `TaskHierarchyService.move_task`.  The descendant query runs with
  `autoflush=False`, so its `LIKE` filter sees the paths as they were
  before the in-session updates to the moved task; the moved task itself
  never matches `old_path ++ "/%"`.  The second `new_parent` query returns
  the identity-mapped object, i.e. the row of `s1` (only the moved task's
  `parent_task_id` differs from `s`). -/
def moveTask (s : HState) (tid : Nat) (newParent? : Option Nat) :
    Except String HState :=
  match findTask s tid with
  | none => .error ("Task not found")
  | some task =>
    let circ : Except String Unit :=
      match newParent? with
      | none => .ok ()
      | some pid =>
        match findTask s pid with
        | none => .error ("Parent task not found")
        | some _ =>
          if (taskDescendants s tid).any (fun d => d.id == pid) then
            .error ("Cannot move task: would create circular reference")
          else .ok ()
    match circ with
    | .error e => .error e
    | .ok _ =>
      let oldPath := task.path
      let oldLevel := task.level
      let s1 := updateTask s tid (fun t => { t with parent := newParent? })
      let newLP : Int × String :=
        match newParent? with
        | some pid =>
          match findTask s1 pid with
          | some np => (np.level + 1, np.path ++ "/" ++ task.code)
          | none => (0, task.code)    -- unreachable: existence checked above
        | none => (0, task.code)
      let newLevel := newLP.1
      let newPath := newLP.2
      let s2 := updateTask s1 tid
        (fun t => { t with level := newLevel, path := newPath })
      let levelDiff := newLevel - oldLevel
      let descIds := (s.filter (fun t => likeSlashPrefix oldPath t.path)).map
        (fun t => t.id)
      let s3 := s2.map (fun t =>
        if descIds.contains t.id then
          { t with path := newPath ++ sliceFrom t.path oldPath.data.length,
                   level := t.level + levelDiff }
        else t)
      .ok s3

/-- `TaskHierarchyService.calculate_progress`: returns the computed value
  and the state (for a non-leaf task the computed mean is also written to
  the row and committed). -/
def calculateProgress (s : HState) (tid : Nat) : Int × HState :=
  match findTask s tid with
  | none => (0, s)
  | some task =>
    let children := taskChildren s tid
    if children.isEmpty then
      (task.progress, s)
    else
      let total := (children.map (fun c => c.progress)).sum
      let avg := Int.fdiv total (children.length : Int)
      (avg, updateTask s tid (fun t => { t with progress := avg }))

/-- `TaskHierarchyService.update_task_progress`. -/
def updateTaskProgress (s : HState) (tid : Nat) (progress : Int) :
    Except String HState :=
  if ¬ (0 ≤ progress ∧ progress ≤ 100) then
    .error ("Progress must be between 0 and 100")
  else
    match findTask s tid with
    | none => .error ("Task not found")
    | some task =>
      let s1 := updateTask s tid (fun t => { t with progress := progress })
      match task.parent with
      | some pid => .ok (calculateProgress s1 pid).2
      | none => .ok s1

/-! ### Path segments

The spec states the level invariant as `len(split(path, "/")) - 1`.
`splitSlash` is Python's `path.split("/")` for the one-character
separator `"/"`. -/

/-- Worker for `splitSlash`: `acc` is the current segment, reversed. -/
def splitSlashAux : List Char → List Char → List String
  | [], acc => [String.mk acc.reverse]
  | c :: rest, acc =>
    if c = '/' then String.mk acc.reverse :: splitSlashAux rest []
    else splitSlashAux rest (c :: acc)

/-- Python `path.split("/")`. -/
def splitSlash (s : String) : List String :=
  splitSlashAux s.data []

/-- Number of `'/'` characters in a string. -/
def countSlash (s : String) : Nat :=
  s.data.count '/'

/-! ### Resource assignment model

Rows of `documents` and of the `document_tasks` association table
(`src/src/services/resource_assignment_service.py`).  Documents keep the
columns the claims mention (`id`, `text`, `assignment_status`); the
remaining `d.*` columns are constant per document and add nothing to the
`SELECT DISTINCT` row identity.  `assigned_at` timestamps are abstract
`Nat` clock values. -/

structure RDoc where
  id : Nat
  text : String
  status : String
  deriving Repr, DecidableEq

structure REdge where
  docId : Nat
  taskId : Nat
  inherited : Bool
  assignedAt : Nat
  assignedBy : Option String
  deriving Repr, DecidableEq

structure RState where
  docs : List RDoc
  tasks : HState
  edges : List REdge
  deriving Repr, DecidableEq

def findDoc (docs : List RDoc) (rid : Nat) : Option RDoc :=
  docs.find? (fun d => d.id == rid)

/-- In-session mutation of a document row. -/
def updateDoc (docs : List RDoc) (rid : Nat) (f : RDoc → RDoc) : List RDoc :=
  docs.map (fun d => if d.id == rid then f d else d)

/-- `ResourceAssignmentService.assign_resource_to_tasks`.  Returns the new
  state together with `assignments_created` and `assignments_skipped`.
  `now` stands for `datetime.utcnow()`. -/
def assignResourceToTasks (s : RState) (rid : Nat) (tids : List Nat)
    (assignedBy : Option String) (inherited : Bool) (now : Nat) :
    Except String (RState × List Nat × List Nat) :=
  if (findDoc s.docs rid).isNone then
    .error ("Resource not found")
  else
    let found := s.tasks.filter (fun t => tids.contains t.id)
    if found.length ≠ tids.length then
      .error ("Tasks not found")
    else
      let step := fun (acc : List REdge × List Nat × List Nat) (tid : Nat) =>
        let (edges, created, skipped) := acc
        if edges.any (fun e => e.docId == rid && e.taskId == tid) then
          (edges, created, skipped ++ [tid])
        else
          (edges ++ [⟨rid, tid, inherited, now, assignedBy⟩],
           created ++ [tid], skipped)
      let (edges', created, skipped) := tids.foldl step (s.edges, [], [])
      let docs' := if created.isEmpty then s.docs
        else updateDoc s.docs rid (fun d => { d with status := "assigned" })
      .ok (⟨docs', s.tasks, edges'⟩, created, skipped)

/-- `ResourceAssignmentService.unassign_resource_from_task`:
  `DELETE FROM document_tasks WHERE document_id = rid AND task_id = tid`,
  then if rows were deleted and the resource has no remaining edges its
  `assignment_status` reverts to `"unassigned"`. -/
def unassignResourceFromTask (s : RState) (rid : Nat) (tid : Nat) :
    Bool × RState :=
  let edges' := s.edges.filter (fun e => !(e.docId == rid && e.taskId == tid))
  if edges'.length < s.edges.length then
    let remaining := edges'.countP (fun e => e.docId == rid)
    let docs' := if remaining == 0 then
        updateDoc s.docs rid (fun d => { d with status := "unassigned" })
      else s.docs
    (true, ⟨docs', s.tasks, edges'⟩)
  else
    (false, s)

/-- A result row of `get_task_resources`: document columns joined with the
  assignment columns. -/
structure TaskResRow where
  doc : RDoc
  assignedAt : Nat
  assignedBy : Option String
  inherited : Bool
  deriving Repr, DecidableEq

/-- Insert into a list sorted by `assignedAt` descending (SQL
  `ORDER BY dt.assigned_at DESC`). -/
def insertByAtDesc (at_ : α → Nat) (x : α) : List α → List α
  | [] => [x]
  | y :: ys => if at_ y ≤ at_ x then x :: y :: ys else y :: insertByAtDesc at_ x ys

def sortByAtDesc (at_ : α → Nat) : List α → List α
  | [] => []
  | x :: xs => insertByAtDesc at_ x (sortByAtDesc at_ xs)

/-- `ResourceAssignmentService.get_task_resources`: join of `documents`
  with `document_tasks` on `task_id`, optionally restricted to direct
  (`inherited = FALSE`) edges, ordered by `assigned_at` descending. -/
def getTaskResources (s : RState) (tid : Nat) (includeInherited : Bool) :
    List TaskResRow :=
  let rows := s.edges.filterMap (fun e =>
    if e.taskId == tid && (includeInherited || !e.inherited) then
      match findDoc s.docs e.docId with
      | some d => some ⟨d, e.assignedAt, e.assignedBy, e.inherited⟩
      | none => none
    else none)
  sortByAtDesc (fun r => r.assignedAt) rows

/-- `get_task_ancestors`: walk the parent chain, immediate parent first;
  Python's `while` loop never terminates on a cyclic parent chain, the
  fuel `s.length` bounds the walk and never truncates it on an acyclic
  state with distinct ids. -/
def ancestorChain (s : HState) : Option Nat → Nat → List HTask
  | _, 0 => []
  | none, _ => []
  | some pid, fuel + 1 =>
    match findTask s pid with
    | none => []
    | some p => p :: ancestorChain s p.parent fuel

/-- `TaskHierarchyService.get_task_ancestors` (returned root-first). -/
def getTaskAncestors (s : HState) (tid : Nat) : List HTask :=
  match findTask s tid with
  | none => []
  | some t => (ancestorChain s t.parent s.length).reverse

/-- A result row of `get_inherited_resources`: `SELECT DISTINCT d.*,
  dt.assigned_at, dt.assigned_by, t.task_code as source_task_code`.
  DISTINCT operates on this whole row, `source_task_code` included. -/
structure InheritedRow where
  doc : RDoc
  assignedAt : Nat
  assignedBy : Option String
  sourceTaskCode : String
  deriving Repr, DecidableEq

/-- Worker for `sqlDistinct`: drop elements already in `seen`. -/
def sqlDistinctAux [BEq α] (seen : List α) : List α → List α
  | [] => []
  | x :: xs =>
    if seen.contains x then sqlDistinctAux seen xs
    else x :: sqlDistinctAux (seen ++ [x]) xs

/-- SQL `DISTINCT` on full rows: keep the first occurrence of each row. -/
def sqlDistinct [BEq α] (l : List α) : List α :=
  sqlDistinctAux [] l

/-- `ResourceAssignmentService.get_inherited_resources`: direct
  (non-inherited) resource edges of every ancestor of `tid`, joined with
  `documents` and `tasks`, DISTINCT over the whole selected row, ordered
  by `assigned_at` descending.  Empty when the task has no ancestors. -/
def getInheritedResources (s : RState) (tid : Nat) : List InheritedRow :=
  let ancestors := getTaskAncestors s.tasks tid
  if ancestors.isEmpty then []
  else
    let ancestorIds := ancestors.map (fun a => a.id)
    let rows := s.edges.filterMap (fun e =>
      if ancestorIds.contains e.taskId && !e.inherited then
        match findDoc s.docs e.docId, findTask s.tasks e.taskId with
        | some d, some t => some ⟨d, e.assignedAt, e.assignedBy, t.code⟩
        | _, _ => none
      else none)
    sortByAtDesc (fun r => r.assignedAt) (sqlDistinct rows)

/-! ### Contextual Q&A: context assembly for scope `"self"`

`ContextualQAService._build_context_by_scope`, `scope == "self"` branch.
A context document is reduced to its id and its `source` tag (`"task"` or
`"general"`); the constant float `similarity` written alongside the tag
plays no part in any claim.  The external semantic search
(`document_service.search_documents_by_similarity(question, top_k=n)`) is
abstracted as a function `search` from the requested `top_k` to the list
of found document ids. -/

structure CtxDoc where
  id : Nat
  source : String
  deriving Repr, DecidableEq

/-- The `scope == "self"` branch of `_build_context_by_scope`: direct task
  resources capped at `top_k // 2` and tagged `"task"`, then, if fewer than
  `top_k` documents were collected, general search results tagged
  `"general"` fill the remainder. -/
def buildContextSelf (s : RState) (tid : Nat) (search : Nat → List Nat)
    (topK : Nat) : List CtxDoc :=
  let resources := getTaskResources s tid false
  let docs := (resources.take (topK / 2)).map
    (fun r => ({ id := r.doc.id, source := "task" } : CtxDoc))
  if docs.length < topK then
    let remaining := topK - docs.length
    let generalDocs := search remaining
    docs ++ (generalDocs.take remaining).map
      (fun i => ({ id := i, source := "general" } : CtxDoc))
  else docs

/-! ### Dependency repository

`TaskRepository` in
`src/infrastructure/database/repositories/task_repository.py` (the file
repeats identical method definitions several times; Python keeps the last
copy, and all copies coincide).  A `task_dependencies` row is reduced to
its two task-id columns; `dependency_type`, `description`, `created_by`
and `created_at` are never read by the graph logic.  The graph code turns
ids into node keys with `str(...)`, an injective formatting step kept as
the `Nat` ids themselves. -/

structure Dep where
  dependent : Nat
  prereq : Nat
  deriving Repr, DecidableEq

/-- `TaskRepository.create_dependency`: `False` on a self-dependency or a
  missing endpoint, `True` as a no-op when the exact edge already exists,
  otherwise inserts the edge and returns `True`.  `taskIds` are the ids of
  the existing `tasks` rows. -/
def createDependency (taskIds : List Nat) (deps : List Dep) (a b : Nat) :
    Bool × List Dep :=
  if a == b then (false, deps)
  else if ¬ (taskIds.contains a) ∨ ¬ (taskIds.contains b) then (false, deps)
  else if (deps.find? (fun d => d.dependent == a && d.prereq == b)).isSome then
    (true, deps)
  else (true, deps ++ [⟨a, b⟩])

/-- CPython `set(...)` built from a list: membership is what matters, the
  (unspecified) iteration order is modelled as first-occurrence order. -/
def pySet (l : List Nat) : List Nat :=
  sqlDistinctAux [] l

/-- `get_dependency_graph`: `root_tasks` = prerequisite ids minus
  dependent ids. -/
def graphRoots (deps : List Dep) : List Nat :=
  (pySet (deps.map (fun d => d.prereq))).filter
    (fun n => ¬ (deps.map (fun d => d.dependent)).contains n)

/-- `get_dependency_graph`: `leaf_tasks` = dependent ids minus
  prerequisite ids. -/
def graphLeaves (deps : List Dep) : List Nat :=
  (pySet (deps.map (fun d => d.dependent))).filter
    (fun n => ¬ (deps.map (fun d => d.prereq)).contains n)

/-- `_detect_cycles` adjacency construction: `graph[prereq].append(dep)`,
  keys in first-appearance order (Python dict insertion order). -/
def addNeighbor : List (Nat × List Nat) → Nat → Nat → List (Nat × List Nat)
  | [], p, d => [(p, [d])]
  | (k, vs) :: rest, p, d =>
    if k == p then (k, vs ++ [d]) :: rest
    else (k, vs) :: addNeighbor rest p d

def buildAdj (deps : List Dep) : List (Nat × List Nat) :=
  deps.foldl (fun g dep => addNeighbor g dep.prereq dep.dependent) []

/-- `graph.get(node, [])`. -/
def adjGet (g : List (Nat × List Nat)) (n : Nat) : List Nat :=
  match g.find? (fun kv => kv.1 == n) with
  | some kv => kv.2
  | none => []

/-- `list.index(x)` (the guard in `_detect_cycles` guarantees presence). -/
def pyIndex [BEq α] : List α → α → Nat
  | [], _ => 0
  | y :: ys, x => if y == x then 0 else pyIndex ys x + 1

/-- Mutable state threaded through `_detect_cycles`'s nested `dfs`:
  `visited` and `rec_stack` sets (kept as ordered lists, only membership
  is used) and the accumulated `cycles`. -/
structure DfsState where
  visited : List Nat
  recStack : List Nat
  cycles : List (List Nat)
  deriving Repr, DecidableEq

/-- The recursive `dfs(node, path)` of `_detect_cycles`.  The fuel
  argument only serves Lean's termination checker: each recursive level
  either returns at once or marks one more node visited, so the recursion
  depth never exceeds the number of distinct nodes plus one, and the fuel
  `2 * |deps| + 1` used by `detectCycles` is never exhausted. -/
def dfsDetect (g : List (Nat × List Nat)) :
    Nat → Nat → List Nat → DfsState → DfsState
  | 0, _, _, st => st
  | fuel + 1, node, path, st =>
    if st.recStack.contains node then
      { st with cycles :=
          st.cycles ++ [path.drop (pyIndex path node) ++ [node]] }
    else if st.visited.contains node then st
    else
      let st1 := { st with visited := st.visited ++ [node],
                           recStack := st.recStack ++ [node] }
      let st2 := (adjGet g node).foldl
        (fun acc nb => dfsDetect g fuel nb (path ++ [node]) acc) st1
      { st2 with recStack := st2.recStack.erase node }

/-- `TaskRepository._detect_cycles`. -/
def detectCycles (deps : List Dep) : List (List Nat) :=
  let g := buildAdj deps
  let fuel := 2 * deps.length + 1
  let final := g.foldl
    (fun st kv =>
      if st.visited.contains kv.1 then st else dfsDetect g fuel kv.1 [] st)
    ⟨[], [], []⟩
  final.cycles

/-! ### Operation sequences over the hierarchy (for the path/level
invariants): each API call either succeeds or raises, and a raised
`ValidationException` leaves the committed state unchanged. -/

inductive HOp where
  | create (code? : Option String) (parent? : Option Nat)
  | move (tid : Nat) (newParent? : Option Nat)

def runOp (s : HState) : HOp → HState
  | .create c p =>
    match createTask s c p with
    | .ok s' => s'
    | .error _ => s
  | .move t p =>
    match moveTask s t p with
    | .ok s' => s'
    | .error _ => s

def runOps (s : HState) (ops : List HOp) : HState :=
  ops.foldl runOp s

/-- A string free of `'/'` (task codes are path segments). -/
def slashFree (c : String) : Prop :=
  '/' ∉ c.data

/-- A string free of the SQL `LIKE` metacharacters `'%'` and `'_'`
  (codes containing them make the interpolated LIKE patterns of
  `move_task`/`get_task_descendants` match unrelated rows). -/
def wildFree (c : String) : Prop :=
  ∀ ch ∈ c.data, ch ≠ '%' ∧ ch ≠ '_' 

/-- The level invariant exactly as the spec words it:
  `t.level == len(split(t.path, "/")) - 1`. -/
def levelInvariant (s : HState) : Prop :=
  ∀ t ∈ s, t.level = ((splitSlash t.path).length : Int) - 1

/-- The path invariant exactly as the spec words it: a task with a parent
  has `path == parent.path + "/" + code`; a root task has its code as path
  and level `0`. -/
def pathInvariant (s : HState) : Prop :=
  ∀ t ∈ s,
    (∀ pid, t.parent = some pid →
      ∃ p ∈ s, p.id = pid ∧ t.path = p.path ++ "/" ++ t.code) ∧
    (t.parent = none → t.path = t.code ∧ t.level = 0)

/-- Strengthened induction invariant for states reachable by well-formed
  operation sequences: distinct ids, codes and paths, slash-free codes,
  levels counting path separators, and the parent/path relation. -/
def StateInv (s : HState) : Prop :=
  (s.map (fun t => t.id)).Nodup ∧
  (s.map (fun t => t.code)).Nodup ∧
  (s.map (fun t => t.path)).Nodup ∧
  (∀ t ∈ s, slashFree t.code) ∧
  (∀ t ∈ s, t.level = (countSlash t.path : Int)) ∧
  (∀ t ∈ s, ∀ pid, t.parent = some pid →
    ∃ p ∈ s, p.id = pid ∧ t.path = p.path ++ "/" ++ t.code) ∧
  (∀ t ∈ s, t.parent = none → t.path = t.code) ∧
  (∀ t ∈ s, wildFree t.code) ∧
  (∀ t ∈ s, wildFree t.path)

/-- The operations under which the invariants are provable: an explicitly
  supplied task code must be a single literal path segment (no `'/'` and
  no LIKE metacharacter `'%'`/`'_'`), and a task is never moved under
  itself (the code rejects neither case; see the analysis of
  `move_task` and the counterexamples). -/
def goodOp : HOp → Prop
  | .create none _ => True
  | .create (some c) _ => c ≠ "" → slashFree c ∧ wildFree c
  | .move tid p? => p? ≠ some tid

/-! ### Generic lemmas about the embedded queries -/

theorem findTask_updateTask_self (s : HState) (tid : Nat)
    (f : HTask → HTask) (hid : ∀ t, (f t).id = t.id) :
    findTask (updateTask s tid f) tid = (findTask s tid).map f := by
  induction s with
  | nil => rfl
  | cons t ts ih =>
    by_cases h : t.id = tid
    · have hb2 : ((f t).id == tid) = true := by simp [hid t, h]
      simp [findTask, updateTask, List.find?_cons, h, hb2]
    · simpa [findTask, updateTask, List.find?_cons, h, Function.comp]
        using ih

theorem findTask_updateTask_ne (s : HState) (tid tid' : Nat)
    (f : HTask → HTask) (hid : ∀ t, (f t).id = t.id) (h : tid' ≠ tid) :
    findTask (updateTask s tid f) tid' = findTask s tid' := by
  induction s with
  | nil => rfl
  | cons t ts ih =>
    by_cases ht : t.id = tid
    · have hb2 : ((f t).id == tid') = false := by simp [hid t, ht, Ne.symm h]
      have hb3 : (t.id == tid') = false := by simp [ht, Ne.symm h]
      have hb4 : (tid == tid') = false := by simp [Ne.symm h]
      simpa [findTask, updateTask, List.find?_cons, ht, hb2, hb3, hb4,
        Function.comp] using ih
    · by_cases ht' : t.id = tid'
      · simp [findTask, updateTask, List.find?_cons, ht, ht', h]
      · simpa [findTask, updateTask, List.find?_cons, ht, ht',
          Function.comp] using ih

theorem taskChildren_updateTask (s : HState) (tid pid : Nat)
    (f : HTask → HTask) (hpar : ∀ t, (f t).parent = t.parent) :
    taskChildren (updateTask s tid f) pid =
      (taskChildren s pid).map (fun t => if t.id == tid then f t else t) := by
  induction s with
  | nil => rfl
  | cons t ts ih =>
    by_cases ht : t.id = tid
    · by_cases hp : t.parent = some pid
      · simp [taskChildren, updateTask, ht, hp, hpar] at ih ⊢
        exact ih
      · simp [taskChildren, updateTask, ht, hp, hpar] at ih ⊢
        exact ih
    · by_cases hp : t.parent = some pid
      · simp [taskChildren, updateTask, ht, hp] at ih ⊢
        exact ih
      · simp [taskChildren, updateTask, ht, hp] at ih ⊢
        exact ih

/-! ### C8: `calculate_progress` -/

/-- Concrete three-task state for the C8 witness. -/
def c8State : HState :=
  [⟨1, "A", none, 0, "A", 5⟩, ⟨2, "B", some 1, 1, "A/B", 30⟩,
   ⟨3, "C", some 1, 1, "A/C", 41⟩]

/-- C8: for an existing task `t` (that is not its own child),
  `CalculateProgress(t)` returns the floor of the mean of its direct
  children's stored progress when it has at least one child, and `t`'s own
  stored progress when it has none; a directly-set progress value on a
  task with children does not affect the computed value. -/
theorem calculateProgress_children_mean (s : HState) (tid : Nat)
    (task : HTask) (ht : findTask s tid = some task)
    (hc : ∀ c ∈ taskChildren s tid, c.id ≠ tid) :
    (taskChildren s tid = [] → (calculateProgress s tid).1 = task.progress) ∧
    (taskChildren s tid ≠ [] →
      (calculateProgress s tid).1 =
        Int.fdiv ((taskChildren s tid).map (fun c => c.progress)).sum
          ((taskChildren s tid).length : Int) ∧
      ∀ p' : Int,
        (calculateProgress
            (updateTask s tid (fun t => { t with progress := p' })) tid).1 =
          (calculateProgress s tid).1) := by
  constructor
  · intro hemp
    simp [calculateProgress, ht, hemp]
  · intro hne
    have hemp : (taskChildren s tid).isEmpty = false := by
      simpa [List.isEmpty_iff] using hne
    constructor
    · simp [calculateProgress, ht, hemp]
    · intro p'
      have h1 : findTask (updateTask s tid
            (fun t => { t with progress := p' })) tid =
          some { task with progress := p' } := by
        rw [findTask_updateTask_self s tid
          (fun t => { t with progress := p' }) (fun t => rfl), ht]
        rfl
      have h2 : taskChildren (updateTask s tid
            (fun t => { t with progress := p' })) tid = taskChildren s tid := by
        rw [taskChildren_updateTask s tid tid
          (fun t => { t with progress := p' }) (fun t => rfl)]
        have : ∀ c ∈ taskChildren s tid,
            (if c.id == tid then { c with progress := p' } else c) = c := by
          intro c hcm
          simp [hc c hcm]
        rw [List.map_congr_left this]
        simp
      simp [calculateProgress, h1, h2, ht, hemp]

/-- Witness for C8 at a concrete three-task state. -/
theorem calculateProgress_children_mean_witness :
    (taskChildren c8State 1 = [] →
      (calculateProgress c8State 1).1 = (5 : Int)) ∧
    (taskChildren c8State 1 ≠ [] →
      (calculateProgress c8State 1).1 =
        Int.fdiv ((taskChildren c8State 1).map (fun c => c.progress)).sum
          ((taskChildren c8State 1).length : Int) ∧
      ∀ p' : Int,
        (calculateProgress
            (updateTask c8State 1 (fun t => { t with progress := p' })) 1).1 =
          (calculateProgress c8State 1).1) :=
  calculateProgress_children_mean c8State 1 ⟨1, "A", none, 0, "A", 5⟩
    (by decide) (by decide)

/-! ### C1: `update_task_progress` -/

/-- Three-level chain `R → M → L` with all progress `0`. -/
def c1State : HState :=
  [⟨1, "R", none, 0, "R", 0⟩, ⟨2, "M", some 1, 1, "R/M", 0⟩,
   ⟨3, "L", some 2, 2, "R/M/L", 0⟩]

/-- C1 counterexample: updating the leaf `L` to `100` recalculates only
  its direct parent `M`; the grandparent `R` is an ancestor of `L` yet its
  stored progress (`0`) is not the floor-mean of its children's progress
  (`100`), so the claim fails at this input. -/
theorem updateTaskProgress_grandparent_stale :
    updateTaskProgress c1State 3 100 =
      .ok [⟨1, "R", none, 0, "R", 0⟩, ⟨2, "M", some 1, 1, "R/M", 100⟩,
           ⟨3, "L", some 2, 2, "R/M/L", 100⟩] ∧
    (1 : Nat) ∈ (getTaskAncestors c1State 3).map (fun a => a.id) ∧
    ¬ ((findTask [⟨1, "R", none, 0, "R", 0⟩,
          ⟨2, "M", some 1, 1, "R/M", 100⟩,
          ⟨3, "L", some 2, 2, "R/M/L", 100⟩] 1).map (fun t => t.progress) =
        some (Int.fdiv
          ((taskChildren [⟨1, "R", none, 0, "R", 0⟩,
              ⟨2, "M", some 1, 1, "R/M", 100⟩,
              ⟨3, "L", some 2, 2, "R/M/L", 100⟩] 1).map
            (fun c => c.progress)).sum
          ((taskChildren [⟨1, "R", none, 0, "R", 0⟩,
              ⟨2, "M", some 1, 1, "R/M", 100⟩,
              ⟨3, "L", some 2, 2, "R/M/L", 100⟩] 1).length : Int))) := by
  refine ⟨rfl, by decide, by decide⟩

/-- C1 amended: for `0 ≤ p ≤ 100`, `update_task_progress` stores `p` on
  the task and recalculates exactly its direct parent (when that parent
  exists): afterwards the parent's stored progress is the floor-mean of
  its direct children's stored progress (when it has children), and every
  task other than the updated task and its direct parent keeps its row
  unchanged — more distant ancestors are not recalculated. -/
theorem updateTaskProgress_parent_only (s : HState) (tid pid : Nat)
    (task ptask : HTask) (p : Int)
    (ht : findTask s tid = some task)
    (hp : 0 ≤ p ∧ p ≤ 100)
    (hpar : task.parent = some pid)
    (hne : pid ≠ tid)
    (hpt : findTask s pid = some ptask)
    (hpc : ∀ c ∈ taskChildren s pid, c.id ≠ pid) :
    ∃ s', updateTaskProgress s tid p = .ok s' ∧
      (findTask s' tid).map (fun t => t.progress) = some p ∧
      (taskChildren s' pid ≠ [] →
        (findTask s' pid).map (fun t => t.progress) =
          some (Int.fdiv
            ((taskChildren s' pid).map (fun c => c.progress)).sum
            ((taskChildren s' pid).length : Int))) ∧
      (∀ u ∈ s, u.id ≠ tid → u.id ≠ pid → u ∈ s') := by
  have hnp : ¬ ¬ (0 ≤ p ∧ p ≤ 100) := not_not_intro hp
  set f1 : HTask → HTask := fun t => { t with progress := p } with hf1
  set s1 := updateTask s tid f1 with hs1
  have hft1 : findTask s1 tid = some { task with progress := p } := by
    rw [hs1, findTask_updateTask_self s tid f1 (fun t => rfl), ht]
    rfl
  have hftp : findTask s1 pid = some ptask := by
    rw [hs1, findTask_updateTask_ne s tid pid f1 (fun t => rfl) hne, hpt]
  have hch1 : taskChildren s1 pid =
      (taskChildren s pid).map (fun t => if t.id == tid then f1 t else t) := by
    rw [hs1, taskChildren_updateTask s tid pid f1 (fun t => rfl)]
  have hpc1 : ∀ c ∈ taskChildren s1 pid, c.id ≠ pid := by
    intro c hcm
    rw [hch1] at hcm
    obtain ⟨c0, hc0, rfl⟩ := List.mem_map.mp hcm
    by_cases h : c0.id = tid <;> simp [h, hpc c0 hc0, Ne.symm hne]
  have hmemkeep : ∀ u ∈ s, u.id ≠ tid → u ∈ s1 := by
    intro u hu hutid
    rw [hs1]
    have hfix : (if u.id == tid then f1 u else u) = u := by simp [hutid]
    simp only [updateTask]
    exact List.mem_map.mpr ⟨u, hu, hfix⟩
  rcases hce : taskChildren s1 pid with _ | ⟨c0, cs⟩
  · -- parent has no children: `calculate_progress` returns without writing
    have hemp : (taskChildren s1 pid).isEmpty = true := by
      rw [hce]; rfl
    have hrun : updateTaskProgress s tid p = .ok s1 := by
      simp only [updateTaskProgress, if_neg hnp, ht, hpar]
      rw [show updateTask s tid (fun t => { t with progress := p }) = s1
        from hs1.symm]
      simp only [calculateProgress, hftp, hemp]
      simp
    refine ⟨s1, hrun, ?_, ?_, ?_⟩
    · simp [hft1]
    · intro hne2
      exact absurd hce hne2
    · intro u hu h1 _
      exact hmemkeep u hu h1
  · -- parent has children: its row is rewritten with the floor-mean
    have hcene : taskChildren s1 pid ≠ [] := by rw [hce]; simp
    have hemp : (taskChildren s1 pid).isEmpty = false := by
      simpa [List.isEmpty_iff] using hcene
    set avg := Int.fdiv ((taskChildren s1 pid).map (fun c => c.progress)).sum
      ((taskChildren s1 pid).length : Int) with havg
    set f2 : HTask → HTask := fun t => { t with progress := avg } with hf2
    set s2 := updateTask s1 pid f2 with hs2
    have hrun : updateTaskProgress s tid p = .ok s2 := by
      simp only [updateTaskProgress, if_neg hnp, ht, hpar]
      rw [show updateTask s tid (fun t => { t with progress := p }) = s1
        from hs1.symm]
      simp only [calculateProgress, hftp, hemp]
      simp [hs2, havg, hf2]
    have hch2 : taskChildren s2 pid = taskChildren s1 pid := by
      rw [hs2, taskChildren_updateTask s1 pid pid f2 (fun t => rfl)]
      have hall : ∀ c ∈ taskChildren s1 pid,
          (if c.id == pid then f2 c else c) = c := by
        intro c hcm
        simp [hpc1 c hcm]
      rw [List.map_congr_left hall]
      simp
    refine ⟨s2, hrun, ?_, ?_, ?_⟩
    · rw [hs2, findTask_updateTask_ne s1 pid tid f2 (fun t => rfl)
        (Ne.symm hne), hft1]
      rfl
    · intro _
      have hfp : findTask s2 pid = some { ptask with progress := avg } := by
        rw [hs2, findTask_updateTask_self s1 pid f2 (fun t => rfl), hftp]
        rfl
      rw [hfp, hch2]
      simp [havg]
    · intro u hu h1 h2
      have hu1 : u ∈ s1 := hmemkeep u hu h1
      rw [hs2]
      have hfix : (if u.id == pid then f2 u else u) = u := by simp [h2]
      simp only [updateTask]
      exact List.mem_map.mpr ⟨u, hu1, hfix⟩

/-- Witness for the amended C1 theorem on the concrete chain. -/
theorem updateTaskProgress_parent_only_witness :
    ∃ s', updateTaskProgress c1State 3 100 = .ok s' ∧
      (findTask s' 3).map (fun t => t.progress) = some 100 ∧
      (taskChildren s' 2 ≠ [] →
        (findTask s' 2).map (fun t => t.progress) =
          some (Int.fdiv
            ((taskChildren s' 2).map (fun c => c.progress)).sum
            ((taskChildren s' 2).length : Int))) ∧
      (∀ u ∈ c1State, u.id ≠ 3 → u.id ≠ 2 → u ∈ s') :=
  updateTaskProgress_parent_only c1State 3 2 ⟨3, "L", some 2, 2, "R/M/L", 0⟩
    ⟨2, "M", some 1, 1, "R/M", 0⟩ 100 (by decide) (by decide) (by decide)
    (by decide) (by decide) (by decide)

/-! ### C10: generated task codes -/

/-- C10: when no code is supplied, `create_task` generates
  `"TASK-"` followed by the zero-padded row count plus one; the generated
  value is not guaranteed fresh, and whenever it coincides with an
  existing task's code the call fails with the duplicate-code error even
  though the caller supplied no code. -/
theorem createTask_generated_code (s : HState) (parent? : Option Nat)
    (hdup : ∃ t ∈ s, t.code = genTaskCode s) :
    genTaskCode s = "TASK-" ++ pyFormat03d (s.length + 1) ∧
    createTask s none parent? =
      .error ("Task code " ++ genTaskCode s ++ " already exists") := by
  refine ⟨rfl, ?_⟩
  obtain ⟨t, htm, hcode⟩ := hdup
  have hsome : (s.find? (fun t => t.code == genTaskCode s)).isSome := by
    rw [List.find?_isSome]
    exact ⟨t, htm, by simp [hcode]⟩
  simp [createTask, hsome]

/-- Witness for C10: one row whose code is already `TASK-002` (as left
  behind by a deletion or an explicit code); the generator reuses it. -/
theorem createTask_generated_code_witness :
    genTaskCode [⟨1, "TASK-002", none, 0, "TASK-002", 0⟩] =
      "TASK-" ++
        pyFormat03d
          ([(⟨1, "TASK-002", none, 0, "TASK-002", 0⟩ : HTask)].length + 1) ∧
    createTask [⟨1, "TASK-002", none, 0, "TASK-002", 0⟩] none none =
      .error ("Task code " ++
        genTaskCode [⟨1, "TASK-002", none, 0, "TASK-002", 0⟩] ++
        " already exists") :=
  createTask_generated_code [⟨1, "TASK-002", none, 0, "TASK-002", 0⟩] none
    (by decide)

/-! ### C6: `create_dependency` -/

/-- C6: for existing tasks `a ≠ b`, two consecutive `AddDependency(a, b)`
  calls both return success and leave exactly one `(a, b)` edge
  (idempotent create); `AddDependency(a, a)` always fails and changes
  nothing, and a call with a missing endpoint fails and changes
  nothing. -/
theorem createDependency_idempotent (taskIds : List Nat) (deps : List Dep)
    (a b : Nat) (hab : a ≠ b) (ha : a ∈ taskIds) (hb : b ∈ taskIds)
    (hcount :
      (deps.filter (fun d => d.dependent == a && d.prereq == b)).length ≤ 1) :
    ((createDependency taskIds deps a b).1 = true ∧
     (createDependency taskIds
        (createDependency taskIds deps a b).2 a b).1 = true ∧
     ((createDependency taskIds
        (createDependency taskIds deps a b).2 a b).2.filter
          (fun d => d.dependent == a && d.prereq == b)).length = 1) ∧
    (∀ c, createDependency taskIds deps c c = (false, deps)) ∧
    (∀ c d, c ∉ taskIds ∨ d ∉ taskIds →
      createDependency taskIds deps c d = (false, deps)) := by
  refine ⟨?_, ?_, ?_⟩
  · cases hfind : deps.find? (fun d => d.dependent == a && d.prereq == b) with
    | some e =>
      have h1 : createDependency taskIds deps a b = (true, deps) := by
        simp [createDependency, hab, ha, hb, hfind]
      have hpe := List.find?_some hfind
      have hmem : e ∈ deps.filter (fun d => d.dependent == a && d.prereq == b) :=
        List.mem_filter.mpr ⟨List.mem_of_find?_eq_some hfind, hpe⟩
      have hlen : 0 <
          (deps.filter (fun d => d.dependent == a && d.prereq == b)).length :=
        List.length_pos.mpr (List.ne_nil_of_mem hmem)
      refine ⟨by simp [h1], by simp [h1, createDependency, hab, ha, hb, hfind],
        ?_⟩
      rw [h1]
      simp only [createDependency]
      simp [hab, ha, hb, hfind]
      omega
    | none =>
      have h1 : createDependency taskIds deps a b = (true, deps ++ [⟨a, b⟩]) := by
        simp [createDependency, hab, ha, hb, hfind]
      have hfilnil : deps.filter (fun d => d.dependent == a && d.prereq == b) = [] := by
        rw [List.filter_eq_nil_iff]
        intro d hd
        simpa using List.find?_eq_none.mp hfind d hd
      have hfind2 : (deps ++ [(⟨a, b⟩ : Dep)]).find?
          (fun d => d.dependent == a && d.prereq == b) = some ⟨a, b⟩ := by
        rw [List.find?_append, hfind]
        simp
      have h2 : createDependency taskIds (deps ++ [⟨a, b⟩]) a b =
          (true, deps ++ [⟨a, b⟩]) := by
        simp [createDependency, hab, ha, hb, hfind2]
      refine ⟨by simp [h1], by rw [h1]; simp [h2], ?_⟩
      rw [h1]
      simp only [h2]
      rw [List.filter_append, hfilnil]
      simp
  · intro c
    simp [createDependency]
  · intro c d hcd
    by_cases hceq : c = d
    · simp [createDependency, hceq]
    · have hor : ¬ (taskIds.contains c = true) ∨ ¬ (taskIds.contains d = true) := by
        rcases hcd with h | h
        · exact Or.inl (by simpa using h)
        · exact Or.inr (by simpa using h)
      simp only [createDependency]
      rw [if_neg (by simpa using hceq), if_pos hor]

/-- Witness for C6 with tasks `{1, 2}` and an initially empty edge set. -/
theorem createDependency_idempotent_witness :
    (((createDependency [1, 2] [] 1 2).1 = true ∧
      (createDependency [1, 2]
        (createDependency [1, 2] [] 1 2).2 1 2).1 = true ∧
      ((createDependency [1, 2]
        (createDependency [1, 2] [] 1 2).2 1 2).2.filter
          (fun d => d.dependent == 1 && d.prereq == 2)).length = 1) ∧
     (∀ c, createDependency [1, 2] [] c c = (false, [])) ∧
     (∀ c d, c ∉ [1, 2] ∨ d ∉ [1, 2] →
       createDependency [1, 2] [] c d = (false, []))) :=
  createDependency_idempotent [1, 2] [] 1 2 (by decide) (by decide) (by decide)
    (by decide)

/-! ### C9: assignment status round trip -/

theorem findDoc_updateDoc_self (docs : List RDoc) (rid : Nat)
    (f : RDoc → RDoc) (hid : ∀ d, (f d).id = d.id) :
    findDoc (updateDoc docs rid f) rid = (findDoc docs rid).map f := by
  induction docs with
  | nil => rfl
  | cons d ds ih =>
    by_cases h : d.id = rid
    · have hb2 : ((f d).id == rid) = true := by simp [hid d, h]
      simp [findDoc, updateDoc, List.find?_cons, h, hb2]
    · simpa [findDoc, updateDoc, List.find?_cons, h, Function.comp] using ih

theorem length_filter_bnot_lt (p : α → Bool) (l : List α)
    (h : ∃ e ∈ l, p e = true) :
    (l.filter (fun x => !(p x))).length < l.length := by
  induction l with
  | nil => simp at h
  | cons x xs ih =>
    rcases h with ⟨e, he, hpe⟩
    rcases List.mem_cons.mp he with rfl | hmem
    · have := List.length_filter_le (fun x => !(p x)) xs
      simp [List.filter_cons, hpe]
      omega
    · by_cases hx : p x = true
      · have := List.length_filter_le (fun x => !(p x)) xs
        simp [List.filter_cons, hx]
        omega
      · have hlt := ih ⟨e, hmem, hpe⟩
        simp [List.filter_cons, Bool.eq_false_iff.mpr hx]
        omega

theorem filter_bnot_of_none (p : α → Bool) (l : List α)
    (h : ∀ e ∈ l, p e = false) :
    l.filter (fun x => !(p x)) = l := by
  induction l with
  | nil => rfl
  | cons x xs ih =>
    have hx := h x (List.mem_cons_self x xs)
    simp [List.filter_cons, hx,
      ih (fun e he => h e (List.mem_cons_of_mem x he))]

/-- Evaluation of `unassign_resource_from_task` when the `DELETE` removed
  at least one row. -/
theorem unassign_eval_pos (s : RState) (r t : Nat)
    (hlt : (s.edges.filter
        (fun e => !(e.docId == r && e.taskId == t))).length <
      s.edges.length) :
    unassignResourceFromTask s r t =
      (true,
        ⟨if ((s.edges.filter
              (fun e => !(e.docId == r && e.taskId == t))).countP
                (fun e => e.docId == r) == 0) = true
          then updateDoc s.docs r (fun d => { d with status := "unassigned" })
          else s.docs,
         s.tasks,
         s.edges.filter (fun e => !(e.docId == r && e.taskId == t))⟩) := by
  simp only [unassignResourceFromTask]
  rw [if_pos hlt]

/-- Evaluation of `unassign_resource_from_task` when no row matched. -/
theorem unassign_eval_neg (s : RState) (r t : Nat)
    (hge : ¬ (s.edges.filter
        (fun e => !(e.docId == r && e.taskId == t))).length <
      s.edges.length) :
    unassignResourceFromTask s r t = (false, s) := by
  simp only [unassignResourceFromTask]
  rw [if_neg hge]

/-- C9: for a resource `r` with a stored document row, unassigning a
  non-existent edge returns `False` and changes nothing; unassigning an
  existing edge returns `True` and reverts `assignment_status` to
  `"unassigned"` exactly when no `(r, ·)` edge remains after the delete;
  and for an existing task `t` and a resource `r` with no assignment
  edges, `AssignResource(r, [t])` followed by `UnassignResource(r, t)`
  sets the status to `"assigned"` and then back to `"unassigned"`. -/
theorem unassign_status_roundtrip (s : RState) (r t : Nat) (doc : RDoc)
    (hdoc : findDoc s.docs r = some doc) :
    ((¬ ∃ e ∈ s.edges, (e.docId == r && e.taskId == t) = true) →
      unassignResourceFromTask s r t = (false, s)) ∧
    ((∃ e ∈ s.edges, (e.docId == r && e.taskId == t) = true) →
      (unassignResourceFromTask s r t).1 = true ∧
      (findDoc (unassignResourceFromTask s r t).2.docs r).map
          (fun d => d.status) =
        some (if (s.edges.filter
              (fun e => !(e.docId == r && e.taskId == t))).countP
                (fun e => e.docId == r) = 0
          then "unassigned" else doc.status)) ∧
    ((s.tasks.filter (fun u => ([t] : List Nat).contains u.id)).length = 1 →
      s.edges.countP (fun e => e.docId == r) = 0 →
      ∀ (assignedBy : Option String) (now : Nat),
        ∃ s1 : RState,
          assignResourceToTasks s r [t] assignedBy false now =
            .ok (s1, [t], []) ∧
          (findDoc s1.docs r).map (fun d => d.status) = some "assigned" ∧
          (unassignResourceFromTask s1 r t).1 = true ∧
          (findDoc (unassignResourceFromTask s1 r t).2.docs r).map
              (fun d => d.status) = some "unassigned") := by
  refine ⟨?_, ?_, ?_⟩
  · intro hno
    have hall : ∀ e ∈ s.edges, (e.docId == r && e.taskId == t) = false := by
      intro e he
      by_contra hne
      exact hno ⟨e, he, by simpa using hne⟩
    have heq : s.edges.filter (fun e => !(e.docId == r && e.taskId == t)) =
        s.edges := filter_bnot_of_none _ _ hall
    refine unassign_eval_neg s r t ?_
    rw [heq]
    omega
  · intro hex
    have hlt : (s.edges.filter
        (fun e => !(e.docId == r && e.taskId == t))).length <
        s.edges.length :=
      length_filter_bnot_lt (fun e => e.docId == r && e.taskId == t)
        s.edges hex
    rw [unassign_eval_pos s r t hlt]
    refine ⟨rfl, ?_⟩
    by_cases hrem : (s.edges.filter
        (fun e => !(e.docId == r && e.taskId == t))).countP
          (fun e => e.docId == r) = 0
    · have hb : ((s.edges.filter
          (fun e => !(e.docId == r && e.taskId == t))).countP
            (fun e => e.docId == r) == 0) = true := by simpa using hrem
      have hfd : findDoc (updateDoc s.docs r
          (fun d => { d with status := "unassigned" })) r =
          some { doc with status := "unassigned" } := by
        rw [findDoc_updateDoc_self s.docs r
          (fun d => { d with status := "unassigned" }) (fun d => rfl), hdoc]
        rfl
      simp only [hb, if_pos, if_true]
      rw [if_pos hrem]
      simp [hfd]
    · have hb : ((s.edges.filter
          (fun e => !(e.docId == r && e.taskId == t))).countP
            (fun e => e.docId == r) == 0) = false := by simpa using hrem
      simp only [hb, Bool.false_eq_true, if_false]
      rw [if_neg hrem]
      simp [hdoc]
  · intro htask hnoedge assignedBy now
    have hnone : ((findDoc s.docs r).isNone = true) = False := by
      simp [hdoc]
    have hnoet : (s.edges.any
        (fun e => e.docId == r && e.taskId == t)) = false := by
      rw [List.any_eq_false]
      intro e he
      intro hpe
      have h1 : (e.docId == r) = true := by
        have := hpe
        simp at this
        simp [this.1]
      have hpos : 0 < s.edges.countP (fun e => e.docId == r) :=
        List.countP_pos_iff.mpr ⟨e, he, h1⟩
      omega
    set newEdge : REdge := ⟨r, t, false, now, assignedBy⟩ with hne
    set docs1 := updateDoc s.docs r (fun d => { d with status := "assigned" })
      with hdocs1
    refine ⟨⟨docs1, s.tasks, s.edges ++ [newEdge]⟩, ?_, ?_, ?_, ?_⟩
    · simp only [assignResourceToTasks]
      rw [if_neg (by simp [hdoc])]
      rw [if_neg (not_not_intro (by simpa using htask))]
      simp only [List.foldl_cons, List.foldl_nil]
      have hnoex : ¬ ∃ x ∈ s.edges, x.docId = r ∧ x.taskId = t := by
        simpa using hnoet
      simp [hne, hdocs1, hnoex]
    · show (findDoc docs1 r).map (fun d => d.status) = some "assigned"
      rw [hdocs1, findDoc_updateDoc_self s.docs r
        (fun d => { d with status := "assigned" }) (fun d => rfl), hdoc]
      rfl
    · have hall : ∀ e ∈ s.edges ++ [newEdge],
          ((fun e => e.docId == r && e.taskId == t) e = true) →
          False ∨ True := fun _ _ _ => Or.inr trivial
      have hex : ∃ e ∈ (s.edges ++ [newEdge]),
          (e.docId == r && e.taskId == t) = true :=
        ⟨newEdge, by simp, by simp [hne]⟩
      have hlt : ((s.edges ++ [newEdge]).filter
          (fun e => !(e.docId == r && e.taskId == t))).length <
          (s.edges ++ [newEdge]).length :=
        length_filter_bnot_lt (fun e => e.docId == r && e.taskId == t) _ hex
      have := unassign_eval_pos ⟨docs1, s.tasks, s.edges ++ [newEdge]⟩ r t hlt
      rw [this]
    · have hallf : ∀ e ∈ s.edges, (e.docId == r && e.taskId == t) = false := by
        intro e he
        have h1 : (e.docId == r) = false := by
          by_contra hcon
          have hpos : 0 < s.edges.countP (fun e => e.docId == r) :=
            List.countP_pos_iff.mpr ⟨e, he, by simpa using hcon⟩
          omega
        simp [h1]
      have hfil : (s.edges ++ [newEdge]).filter
          (fun e => !(e.docId == r && e.taskId == t)) = s.edges := by
        rw [List.filter_append, filter_bnot_of_none _ _ hallf]
        simp [hne]
      have hex : ∃ e ∈ (s.edges ++ [newEdge]),
          (e.docId == r && e.taskId == t) = true :=
        ⟨newEdge, by simp, by simp [hne]⟩
      have hlt : ((s.edges ++ [newEdge]).filter
          (fun e => !(e.docId == r && e.taskId == t))).length <
          (s.edges ++ [newEdge]).length :=
        length_filter_bnot_lt (fun e => e.docId == r && e.taskId == t) _ hex
      rw [unassign_eval_pos ⟨docs1, s.tasks, s.edges ++ [newEdge]⟩ r t hlt]
      have hb : (((s.edges ++ [newEdge]).filter
          (fun e => !(e.docId == r && e.taskId == t))).countP
            (fun e => e.docId == r) == 0) = true := by
        rw [hfil]
        simpa using hnoedge
      simp only [hb, if_true]
      have hfd2 : findDoc (updateDoc docs1 r
          (fun d => { d with status := "unassigned" })) r =
          some { doc with status := "unassigned" } := by
        have hfd1 : findDoc docs1 r =
            some { doc with status := "assigned" } := by
          rw [hdocs1, findDoc_updateDoc_self s.docs r
            (fun d => { d with status := "assigned" }) (fun d => rfl), hdoc]
          rfl
        rw [findDoc_updateDoc_self docs1 r
          (fun d => { d with status := "unassigned" }) (fun d => rfl), hfd1]
        rfl
      simp [hfd2]

/-- Witness for C9: one document, one task, no edges. -/
theorem unassign_status_roundtrip_witness :
    ((¬ ∃ e ∈ (RState.mk [⟨7, "d", "unassigned"⟩] [⟨1, "A", none, 0, "A", 0⟩]
          []).edges, (e.docId == 7 && e.taskId == 1) = true) →
      unassignResourceFromTask
        ⟨[⟨7, "d", "unassigned"⟩], [⟨1, "A", none, 0, "A", 0⟩], []⟩ 7 1 =
        (false, ⟨[⟨7, "d", "unassigned"⟩], [⟨1, "A", none, 0, "A", 0⟩], []⟩)) ∧
    ((∃ e ∈ (RState.mk [⟨7, "d", "unassigned"⟩] [⟨1, "A", none, 0, "A", 0⟩]
          []).edges, (e.docId == 7 && e.taskId == 1) = true) →
      (unassignResourceFromTask
          ⟨[⟨7, "d", "unassigned"⟩], [⟨1, "A", none, 0, "A", 0⟩], []⟩ 7 1).1 =
        true ∧
      (findDoc (unassignResourceFromTask
            ⟨[⟨7, "d", "unassigned"⟩], [⟨1, "A", none, 0, "A", 0⟩],
              []⟩ 7 1).2.docs 7).map (fun d => d.status) =
        some (if ((RState.mk [⟨7, "d", "unassigned"⟩]
              [⟨1, "A", none, 0, "A", 0⟩] []).edges.filter
                (fun e => !(e.docId == 7 && e.taskId == 1))).countP
                  (fun e => e.docId == 7) = 0
          then "unassigned" else "unassigned")) ∧
    (((RState.mk [⟨7, "d", "unassigned"⟩] [⟨1, "A", none, 0, "A", 0⟩]
          []).tasks.filter (fun u => ([1] : List Nat).contains u.id)).length =
        1 →
      (RState.mk [⟨7, "d", "unassigned"⟩] [⟨1, "A", none, 0, "A", 0⟩]
          []).edges.countP (fun e => e.docId == 7) = 0 →
      ∀ (assignedBy : Option String) (now : Nat),
        ∃ s1 : RState,
          assignResourceToTasks
            ⟨[⟨7, "d", "unassigned"⟩], [⟨1, "A", none, 0, "A", 0⟩], []⟩ 7 [1]
            assignedBy false now = .ok (s1, [1], []) ∧
          (findDoc s1.docs 7).map (fun d => d.status) = some "assigned" ∧
          (unassignResourceFromTask s1 7 1).1 = true ∧
          (findDoc (unassignResourceFromTask s1 7 1).2.docs 7).map
              (fun d => d.status) = some "unassigned") :=
  unassign_status_roundtrip
    ⟨[⟨7, "d", "unassigned"⟩], [⟨1, "A", none, 0, "A", 0⟩], []⟩ 7 1
    ⟨7, "d", "unassigned"⟩ (by decide)

/-! ### C2: `move_task` cycle guard -/

/-- C2: the cycle guard of `move_task` only tests membership of the new
  parent in `GetDescendants(taskId)`, which never contains the task
  itself.  Moving a root task `A` under itself therefore raises no
  `InvalidOperation`: it commits `parent_task_id = 1`, `task_level = 1`
  and `task_path = "A/A"` — a self-cycle — instead of leaving the tree
  unchanged.  Moving a task under one of its descendants is rejected with
  the tree unchanged, as the claim states. -/
theorem moveTask_self_cycle_committed :
    moveTask [⟨1, "A", none, 0, "A", 0⟩] 1 (some 1) =
      .ok [⟨1, "A", some 1, 1, "A/A", 0⟩] ∧
    moveTask [⟨1, "A", none, 0, "A", 0⟩, ⟨2, "B", some 1, 1, "A/B", 0⟩]
        1 (some 2) =
      .error "Cannot move task: would create circular reference" :=
  ⟨rfl, rfl⟩

/-! ### C4: context assembly for scope `"self"` -/

/-- One task with two direct resources, for the C4 counterexample. -/
def c4State : RState :=
  ⟨[⟨5, "d5", "assigned"⟩, ⟨6, "d6", "assigned"⟩],
   [⟨1, "A", none, 0, "A", 0⟩],
   [⟨5, 1, false, 10, none⟩, ⟨6, 1, false, 20, none⟩]⟩

/-- C4 counterexample: with budget `2` and two direct resources the
  claim requires a result of direct resources only, but the `self` branch
  caps direct resources at `top_k // 2 = 1` and always tops up with
  general search results, so a `"general"` document appears. -/
theorem buildContextSelf_general_leak :
    (getTaskResources c4State 1 false).length = 2 ∧
    buildContextSelf c4State 1 (fun _ => [99]) 2 =
      [⟨6, "task"⟩, ⟨99, "general"⟩] ∧
    ∃ d ∈ buildContextSelf c4State 1 (fun _ => [99]) 2,
      d.source = "general" := by
  refine ⟨by decide, rfl, ⟨99, "general"⟩, by decide, rfl⟩

/-- C4 amended: the `self` scope returns at most `top_k // 2` direct
  resources (tagged `"task"`), never more than `top_k` documents overall,
  and whenever `top_k ≥ 1`, even a task with at least `top_k` direct
  resources gets general search results appended (the direct portion can
  never fill the budget). -/
theorem buildContextSelf_half_budget (s : RState) (tid : Nat)
    (search : Nat → List Nat) (topK : Nat) :
    ((buildContextSelf s tid search topK).filter
        (fun d => d.source == "task")).length =
      min (topK / 2) (getTaskResources s tid false).length ∧
    (buildContextSelf s tid search topK).length ≤ topK ∧
    (1 ≤ topK → topK ≤ (getTaskResources s tid false).length →
      search (topK - topK / 2) ≠ [] →
      ∃ d ∈ buildContextSelf s tid search topK, d.source = "general") := by
  set direct := getTaskResources s tid false with hdir
  set docs := (direct.take (topK / 2)).map
    (fun r => ({ id := r.doc.id, source := "task" } : CtxDoc)) with hdocs
  have hdlen : docs.length = min (topK / 2) direct.length := by
    simp [hdocs]
  have hdocs_task : ∀ d ∈ docs, d.source = "task" := by
    intro d hd
    rw [hdocs] at hd
    obtain ⟨r, _, rfl⟩ := List.mem_map.mp hd
    rfl
  have hfil_docs : docs.filter (fun d => d.source == "task") = docs :=
    List.filter_eq_self.mpr (fun d hd => by simp [hdocs_task d hd])
  by_cases hlt : docs.length < topK
  · have hres : buildContextSelf s tid search topK =
        docs ++ ((search (topK - docs.length)).take (topK - docs.length)).map
          (fun i => ({ id := i, source := "general" } : CtxDoc)) := by
      simp only [buildContextSelf]
      rw [if_pos hlt]
    have hgen_tag : ∀ d ∈ ((search (topK - docs.length)).take
        (topK - docs.length)).map
          (fun i => ({ id := i, source := "general" } : CtxDoc)),
        d.source = "general" := by
      intro d hd
      obtain ⟨i, _, rfl⟩ := List.mem_map.mp hd
      rfl
    refine ⟨?_, ?_, ?_⟩
    · rw [hres, List.filter_append, hfil_docs]
      have : (((search (topK - docs.length)).take (topK - docs.length)).map
          (fun i => ({ id := i, source := "general" } : CtxDoc))).filter
            (fun d => d.source == "task") = [] := by
        rw [List.filter_eq_nil_iff]
        intro d hd
        simp [hgen_tag d hd]
      rw [this]
      simpa using hdlen
    · rw [hres]
      rw [List.length_append]
      have h1 : (((search (topK - docs.length)).take
          (topK - docs.length)).map
            (fun i => ({ id := i, source := "general" } : CtxDoc))).length ≤
          topK - docs.length := by
        simp [List.length_take]
      omega
    · intro h1 h2 hsne
      have hd2 : docs.length = topK / 2 := by
        rw [hdlen]
        exact Nat.min_eq_left (le_trans (Nat.div_le_self _ _) h2)
      have hne0 : topK - topK / 2 ≠ 0 := by
        have := Nat.div_lt_self (show 0 < topK by omega) (show 1 < 2 by omega)
        omega
      obtain ⟨g, gs, hgs⟩ := List.exists_cons_of_ne_nil hsne
      rw [hres]
      refine ⟨⟨g, "general"⟩, ?_, rfl⟩
      refine List.mem_append_right _ ?_
      have hrw : topK - docs.length = topK - topK / 2 := by omega
      rw [hrw, hgs]
      rcases Nat.exists_eq_succ_of_ne_zero hne0 with ⟨k, hk⟩
      rw [hk]
      simp
  · have hres : buildContextSelf s tid search topK = docs := by
      simp only [buildContextSelf]
      rw [if_neg hlt]
    have hle : docs.length ≤ topK / 2 := by
      rw [hdlen]; exact Nat.min_le_left _ _
    refine ⟨?_, ?_, ?_⟩
    · rw [hres, hfil_docs, hdlen]
    · rw [hres]
      exact le_trans hle (Nat.div_le_self _ _)
    · intro h1 _ _
      exfalso
      have hlt2 : topK / 2 < topK := Nat.div_lt_self (by omega) (by omega)
      omega

/-- Witness for the amended C4 theorem, discharging its inner hypotheses
  at the counterexample state. -/
theorem buildContextSelf_half_budget_witness :
    ∃ d ∈ buildContextSelf c4State 1 (fun _ => [99]) 2,
      d.source = "general" :=
  (buildContextSelf_half_budget c4State 1 (fun _ => [99]) 2).2.2
    (by decide) (by decide) (by decide)

/-! ### C3: inherited resources -/

theorem mem_insertByAtDesc (at_ : α → Nat) (x y : α) (l : List α) :
    y ∈ insertByAtDesc at_ x l ↔ y = x ∨ y ∈ l := by
  induction l with
  | nil => simp [insertByAtDesc]
  | cons z zs ih =>
    by_cases h : at_ z ≤ at_ x
    · simp [insertByAtDesc, h]
    · simp [insertByAtDesc, h, ih]
      tauto

theorem perm_insertByAtDesc (at_ : α → Nat) (x : α) (l : List α) :
    List.Perm (insertByAtDesc at_ x l) (x :: l) := by
  induction l with
  | nil => rfl
  | cons z zs ih =>
    by_cases h : at_ z ≤ at_ x
    · simp [insertByAtDesc, h]
    · simp only [insertByAtDesc, if_neg h]
      exact (ih.cons z).trans (List.Perm.swap x z zs)

theorem perm_sortByAtDesc (at_ : α → Nat) (l : List α) :
    List.Perm (sortByAtDesc at_ l) l := by
  induction l with
  | nil => rfl
  | cons z zs ih =>
    exact (perm_insertByAtDesc at_ z (sortByAtDesc at_ zs)).trans (ih.cons z)

theorem mem_sqlDistinctAux [BEq α] [LawfulBEq α] (l : List α) :
    ∀ (seen : List α) (y : α),
      y ∈ sqlDistinctAux seen l ↔ y ∈ l ∧ y ∉ seen := by
  induction l with
  | nil => simp [sqlDistinctAux]
  | cons x xs ih =>
    intro seen y
    by_cases h : seen.contains x = true
    · have hx : x ∈ seen := by simpa using h
      simp only [sqlDistinctAux]
      rw [if_pos h, ih seen y]
      simp only [List.mem_cons]
      constructor
      · rintro ⟨hy, hns⟩
        exact ⟨Or.inr hy, hns⟩
      · rintro ⟨hy | hy, hns⟩
        · exact absurd (hy ▸ hx) hns
        · exact ⟨hy, hns⟩
    · have hx : x ∉ seen := by simpa using h
      simp only [sqlDistinctAux]
      rw [if_neg h]
      simp only [List.mem_cons, ih (seen ++ [x]) y, List.mem_append,
        List.mem_singleton]
      constructor
      · rintro (rfl | ⟨hy, hns⟩)
        · exact ⟨Or.inl rfl, hx⟩
        · exact ⟨Or.inr hy, fun hc => hns (Or.inl hc)⟩
      · rintro ⟨rfl | hy, hns⟩
        · exact Or.inl rfl
        · by_cases hyx : y = x
          · exact Or.inl hyx
          · refine Or.inr ⟨hy, ?_⟩
            intro hc
            simp only [List.not_mem_nil, or_false] at hc
            exact hc.elim hns hyx

theorem nodup_sqlDistinctAux [BEq α] [LawfulBEq α] (l : List α) :
    ∀ seen : List α, (sqlDistinctAux seen l).Nodup := by
  induction l with
  | nil => intro seen; simp [sqlDistinctAux]
  | cons x xs ih =>
    intro seen
    by_cases h : seen.contains x = true
    · simp only [sqlDistinctAux]
      rw [if_pos h]
      exact ih seen
    · simp only [sqlDistinctAux]
      rw [if_neg h]
      rw [List.nodup_cons]
      refine ⟨fun hc => ?_, ih (seen ++ [x])⟩
      have := ((mem_sqlDistinctAux xs (seen ++ [x]) x).mp hc).2
      simp at this

/-- Three-task chain with one document directly assigned to two distinct
  ancestors of the leaf, for the C3 counterexample. -/
def c3State : RState :=
  ⟨[⟨1, "doc", "assigned"⟩],
   [⟨1, "A", none, 0, "A", 0⟩, ⟨2, "B", some 1, 1, "A/B", 0⟩,
    ⟨3, "C", some 2, 2, "A/B/C", 0⟩],
   [⟨1, 1, false, 5, none⟩, ⟨1, 2, false, 7, none⟩]⟩

/-- C3 counterexample: the query deduplicates whole rows
  (`SELECT DISTINCT d.*, dt.assigned_at, dt.assigned_by, t.task_code`),
  and rows for the same document attached to different ancestors differ in
  `source_task_code`, so resource id `1` appears twice in the result —
  the claim's "at most once per resource id" fails at this input. -/
theorem getInheritedResources_duplicate_ids :
    ((getInheritedResources c3State 3).map (fun r => r.doc.id)) = [1, 1] ∧
    ((getInheritedResources c3State 3).map (fun r => r.doc.id)).count 1 = 2 ∧
    ¬ ((getInheritedResources c3State 3).map (fun r => r.doc.id)).Nodup := by
  refine ⟨by decide, by decide, by decide⟩

/-- C3 amended: `GetInheritedResources(t)` returns exactly the direct
  (non-inherited) resource rows of `t`'s ancestors — deduplicated as full
  rows (resource columns together with `assigned_at`, `assigned_by` and
  the source task's code), not by resource id, so a resource directly
  assigned to several ancestors can appear once per ancestor; the result
  is empty when `t` has no ancestors. -/
theorem getInheritedResources_row_membership (s : RState) (tid : Nat) :
    (getTaskAncestors s.tasks tid = [] → getInheritedResources s tid = []) ∧
    (getInheritedResources s tid).Nodup ∧
    (∀ row : InheritedRow, row ∈ getInheritedResources s tid ↔
      (getTaskAncestors s.tasks tid ≠ [] ∧
       ∃ e ∈ s.edges, ∃ d t',
         (((getTaskAncestors s.tasks tid).map (fun a => a.id)).contains
             e.taskId && !e.inherited) = true ∧
         findDoc s.docs e.docId = some d ∧
         findTask s.tasks e.taskId = some t' ∧
         row = ⟨d, e.assignedAt, e.assignedBy, t'.code⟩)) := by
  by_cases hanc : getTaskAncestors s.tasks tid = []
  · have hres : getInheritedResources s tid = [] := by
      simp [getInheritedResources, hanc]
    refine ⟨fun _ => hres, by simp [hres], ?_⟩
    intro row
    simp [hres, hanc]
  · have hne : (getTaskAncestors s.tasks tid).isEmpty = false := by
      simpa [List.isEmpty_iff] using hanc
    have hres : getInheritedResources s tid =
        sortByAtDesc (fun r => r.assignedAt)
          (sqlDistinct (s.edges.filterMap (fun e =>
            if ((getTaskAncestors s.tasks tid).map (fun a => a.id)).contains
                e.taskId && !e.inherited then
              match findDoc s.docs e.docId, findTask s.tasks e.taskId with
              | some d, some t => some ⟨d, e.assignedAt, e.assignedBy, t.code⟩
              | _, _ => none
            else none))) := by
      simp only [getInheritedResources, hne, Bool.false_eq_true, if_false]
    refine ⟨fun h => absurd h hanc, ?_, ?_⟩
    · rw [hres]
      exact ((perm_sortByAtDesc _ _).nodup_iff).mpr (nodup_sqlDistinctAux _ [])
    · intro row
      rw [hres]
      rw [(perm_sortByAtDesc _ _).mem_iff]
      rw [show sqlDistinct (s.edges.filterMap _) = sqlDistinctAux [] _ from rfl]
      rw [mem_sqlDistinctAux]
      simp only [List.not_mem_nil, not_false_iff, and_true]
      rw [List.mem_filterMap]
      constructor
      · rintro ⟨e, he, hfe⟩
        refine ⟨hanc, e, he, ?_⟩
        by_cases hcond : (((getTaskAncestors s.tasks tid).map
            (fun a => a.id)).contains e.taskId && !e.inherited) = true
        · rw [if_pos hcond] at hfe
          rcases hd : findDoc s.docs e.docId with _ | d <;>
            rcases ht : findTask s.tasks e.taskId with _ | t' <;>
              rw [hd, ht] at hfe
          · simp at hfe
          · simp at hfe
          · simp at hfe
          · exact ⟨d, t', hcond, rfl, rfl, by simpa using hfe.symm⟩
        · rw [if_neg hcond] at hfe
          simp at hfe
      · rintro ⟨_, e, he, d, t', hcond, hd, ht, rfl⟩
        refine ⟨e, he, ?_⟩
        rw [if_pos hcond, hd, ht]

/-- Witness for the amended C3 theorem: the root task has no ancestors and
  inherits nothing. -/
theorem getInheritedResources_row_membership_witness :
    getInheritedResources c3State 1 = [] :=
  (getInheritedResources_row_membership c3State 1).1 (by decide)


/-! ### C7: dependency graph roots, leaves and cycle detection -/

theorem dfsDetect_cycle (g : List (Nat × List Nat)) (fuel node : Nat)
    (path : List Nat) (st : DfsState)
    (h : st.recStack.contains node = true) :
    dfsDetect g (fuel + 1) node path st =
      { st with cycles :=
          st.cycles ++ [path.drop (pyIndex path node) ++ [node]] } := by
  simp only [dfsDetect]
  rw [if_pos h]

theorem dfsDetect_enter (g : List (Nat × List Nat)) (fuel node : Nat)
    (path : List Nat) (st : DfsState)
    (h1 : st.recStack.contains node = false)
    (h2 : st.visited.contains node = false) :
    dfsDetect g (fuel + 1) node path st =
      { (adjGet g node).foldl
          (fun acc nb => dfsDetect g fuel nb (path ++ [node]) acc)
          { st with visited := st.visited ++ [node],
                    recStack := st.recStack ++ [node] } with
        recStack :=
          ((adjGet g node).foldl
            (fun acc nb => dfsDetect g fuel nb (path ++ [node]) acc)
            { st with visited := st.visited ++ [node],
                      recStack := st.recStack ++ [node] }).recStack.erase
            node } := by
  have k1 : ¬ (st.recStack.contains node = true) := by rw [h1]; simp
  have k2 : ¬ (st.visited.contains node = true) := by rw [h2]; simp
  simp only [dfsDetect]
  rw [if_neg k1, if_neg k2]

theorem detect3 (a b c : Nat) (hab : a ≠ b) (hbc : b ≠ c) (hac : a ≠ c) :
    detectCycles [⟨b, a⟩, ⟨c, b⟩, ⟨a, c⟩] = [[a, b, c, a]] := by
  have h2 : b ≠ a := Ne.symm hab
  have h4 : c ≠ b := Ne.symm hbc
  have h6 : c ≠ a := Ne.symm hac
  have hadj : buildAdj [⟨b, a⟩, ⟨c, b⟩, ⟨a, c⟩] =
      [(a, [b]), (b, [c]), (c, [a])] := by
    simp [buildAdj, addNeighbor, hab, h2, hbc, h4, hac, h6]
  have hga : adjGet [(a, [b]), (b, [c]), (c, [a])] a = [b] := by
    simp [adjGet, List.find?]
  have hbab : (a == b) = false := by simp [hab]
  have hbac : (a == c) = false := by simp [hac]
  have hbbc : (b == c) = false := by simp [hbc]
  have hgb : adjGet [(a, [b]), (b, [c]), (c, [a])] b = [c] := by
    simp [adjGet, List.find?, hbab]
  have hgc : adjGet [(a, [b]), (b, [c]), (c, [a])] c = [a] := by
    simp [adjGet, List.find?, hbac, hbbc]
  have e4 : ∀ fuel, dfsDetect [(a, [b]), (b, [c]), (c, [a])] (fuel + 1) a
      [a, b, c] ⟨[a, b, c], [a, b, c], []⟩ =
      ⟨[a, b, c], [a, b, c], [[a, b, c, a]]⟩ := by
    intro fuel
    rw [dfsDetect_cycle _ fuel a [a, b, c] ⟨[a, b, c], [a, b, c], []⟩
      (by simp)]
    simp [pyIndex]
  have e5 : ∀ fuel, dfsDetect [(a, [b]), (b, [c]), (c, [a])] (fuel + 2) c
      [a, b] ⟨[a, b], [a, b], []⟩ =
      ⟨[a, b, c], [a, b], [[a, b, c, a]]⟩ := by
    intro fuel
    have hstep := dfsDetect_enter [(a, [b]), (b, [c]), (c, [a])] (fuel + 1) c
      [a, b] ⟨[a, b], [a, b], []⟩ (by simp [h6, h4]) (by simp [h6, h4])
    rw [show fuel + 2 = (fuel + 1) + 1 from rfl, hstep]
    simp only [hgc, List.foldl_cons, List.foldl_nil]
    have happ : ([a, b] ++ [c] : List Nat) = [a, b, c] := by simp
    simp only [happ]
    rw [e4 fuel]
    simp [List.erase_cons, hac, hbc]
  have e6 : ∀ fuel, dfsDetect [(a, [b]), (b, [c]), (c, [a])] (fuel + 3) b
      [a] ⟨[a], [a], []⟩ = ⟨[a, b, c], [a], [[a, b, c, a]]⟩ := by
    intro fuel
    have hstep := dfsDetect_enter [(a, [b]), (b, [c]), (c, [a])] (fuel + 2) b
      [a] ⟨[a], [a], []⟩ (by simp [h2]) (by simp [h2])
    rw [show fuel + 3 = (fuel + 2) + 1 from rfl, hstep]
    simp only [hgb, List.foldl_cons, List.foldl_nil]
    have happ : ([a] ++ [b] : List Nat) = [a, b] := by simp
    simp only [happ]
    rw [e5 fuel]
    simp [List.erase_cons, hab, hbc]
  have e7 : dfsDetect [(a, [b]), (b, [c]), (c, [a])] 7 a [] ⟨[], [], []⟩ =
      ⟨[a, b, c], [], [[a, b, c, a]]⟩ := by
    have hstep := dfsDetect_enter [(a, [b]), (b, [c]), (c, [a])] 6 a []
      ⟨[], [], []⟩ (by simp) (by simp)
    rw [show (7 : Nat) = 6 + 1 from rfl, hstep]
    simp only [hga, List.foldl_cons, List.foldl_nil]
    have happ : (([] : List Nat) ++ [a]) = [a] := by simp
    simp only [happ]
    rw [show (6 : Nat) = 3 + 3 from rfl, e6 3]
    simp [List.erase_cons, hab, hac]
  rw [show detectCycles [⟨b, a⟩, ⟨c, b⟩, ⟨a, c⟩] =
    (List.foldl (fun st kv => if st.visited.contains kv.1 = true then st
      else dfsDetect (buildAdj [⟨b, a⟩, ⟨c, b⟩, ⟨a, c⟩]) 7 kv.1 [] st)
      ⟨[], [], []⟩ (buildAdj [⟨b, a⟩, ⟨c, b⟩, ⟨a, c⟩])).cycles from rfl]
  rw [hadj]
  simp only [List.foldl_cons, List.foldl_nil]
  have k1 : ¬ ((⟨[], [], []⟩ : DfsState).visited.contains a = true) := by
    simp
  rw [if_neg k1, e7]
  have k2 : (⟨[a, b, c], [], [[a, b, c, a]]⟩ :
      DfsState).visited.contains b = true := by simp
  rw [if_pos k2]
  have k3 : (⟨[a, b, c], [], [[a, b, c, a]]⟩ :
      DfsState).visited.contains c = true := by simp
  rw [if_pos k3]

/-- Edge set containing the cycle `1→2→3→1` (prerequisite→dependent)
  together with the chords `1→3` and `3→2`, for the C7 counterexample. -/
def c7Deps : List Dep :=
  [⟨3, 1⟩, ⟨2, 1⟩, ⟨2, 3⟩, ⟨1, 3⟩, ⟨3, 2⟩]

/-- C7 counterexample: an edge set containing the cycle `1→2→3→1` on which
  the DFS reports only the sub-cycles `[3,2,3]` and `[1,3,1]` — no
  reported cycle contains all of `{1, 2, 3}`, so the claim's cycle clause
  fails at this input. -/
theorem detectCycles_misses_full_cycle :
    ((⟨2, 1⟩ : Dep) ∈ c7Deps ∧ (⟨3, 2⟩ : Dep) ∈ c7Deps ∧
      (⟨1, 3⟩ : Dep) ∈ c7Deps) ∧
    detectCycles c7Deps = [[3, 2, 3], [1, 3, 1]] ∧
    ¬ ∃ cyc ∈ detectCycles c7Deps, 1 ∈ cyc ∧ 2 ∈ cyc ∧ 3 ∈ cyc := by
  refine ⟨by decide, by decide, by decide⟩

/-- C7 amended: `root_tasks` are exactly the ids appearing as a
  prerequisite but never as a dependent in the considered edge set, and
  `leaf_tasks` the symmetric case; and when the edge set consists of
  exactly the three edges `A→B`, `B→C`, `C→A` on pairwise-distinct tasks,
  cycle detection reports exactly the cycle `[A, B, C, A]` (with
  additional chords the reported cycles can all miss part of
  `{A, B, C}`). -/
theorem dependencyGraph_roots_leaves_cycle :
    (∀ (deps : List Dep) (n : Nat),
      (n ∈ graphRoots deps ↔
        n ∈ deps.map (fun d => d.prereq) ∧
          n ∉ deps.map (fun d => d.dependent)) ∧
      (n ∈ graphLeaves deps ↔
        n ∈ deps.map (fun d => d.dependent) ∧
          n ∉ deps.map (fun d => d.prereq))) ∧
    (∀ a b c : Nat, a ≠ b → b ≠ c → a ≠ c →
      detectCycles [⟨b, a⟩, ⟨c, b⟩, ⟨a, c⟩] = [[a, b, c, a]]) := by
  constructor
  · intro deps n
    constructor
    · rw [graphRoots, List.mem_filter]
      rw [show pySet (deps.map (fun d => d.prereq)) =
        sqlDistinctAux [] (deps.map (fun d => d.prereq)) from rfl]
      rw [mem_sqlDistinctAux]
      simp
    · rw [graphLeaves, List.mem_filter]
      rw [show pySet (deps.map (fun d => d.dependent)) =
        sqlDistinctAux [] (deps.map (fun d => d.dependent)) from rfl]
      rw [mem_sqlDistinctAux]
      simp
  · exact detect3

/-- Witness for the amended C7 theorem at the concrete three-cycle. -/
theorem dependencyGraph_roots_leaves_cycle_witness :
    detectCycles [⟨2, 1⟩, ⟨3, 2⟩, ⟨1, 3⟩] = [[1, 2, 3, 1]] :=
  dependencyGraph_roots_leaves_cycle.2 1 2 3 (by decide) (by decide)
    (by decide)

/-! ### C5: path/level invariants — string toolkit -/

theorem splitSlashAux_length (l : List Char) :
    ∀ acc, (splitSlashAux l acc).length = l.count '/' + 1 := by
  induction l with
  | nil => intro acc; simp [splitSlashAux]
  | cons ch rest ih =>
    intro acc
    by_cases h : ch = '/'
    · simp [splitSlashAux, h, ih, List.count_cons]
    · simp [splitSlashAux, h, ih, List.count_cons]

theorem splitSlash_length (s : String) :
    (splitSlash s).length = countSlash s + 1 :=
  splitSlashAux_length s.data []

theorem countSlash_append (x y : String) :
    countSlash (x ++ y) = countSlash x + countSlash y := by
  simp [countSlash, String.data_append, List.count_append]

theorem countSlash_slashFree (c : String) (h : slashFree c) :
    countSlash c = 0 :=
  List.count_eq_zero.mpr h

theorem countSlash_slash : countSlash "/" = 1 := rfl

theorem data_slash_append (p c : String) :
    (p ++ "/" ++ c).data = p.data ++ '/' :: c.data := by
  rw [String.data_append, String.data_append,
    show ("/" : String).data = ['/'] from rfl, List.append_assoc]
  rfl

theorem wildFree_parent (p c : String) (hp : wildFree p) (hc : wildFree c) :
    wildFree (p ++ "/" ++ c) := by
  intro ch hch
  rw [data_slash_append] at hch
  rcases List.mem_append.mp hch with hm | hm
  · exact hp ch hm
  · rcases List.mem_cons.mp hm with rfl | hm2
    · exact ⟨by decide, by decide⟩
    · exact hc ch hm2

/-- Splitting at the last separator is unambiguous when the final segments
  are slash-free. -/
theorem sep_inj (p1 : List Char) :
    ∀ (p2 c1 c2 : List Char), '/' ∉ c1 → '/' ∉ c2 →
      p1 ++ '/' :: c1 = p2 ++ '/' :: c2 → p1 = p2 ∧ c1 = c2 := by
  induction p1 with
  | nil =>
    intro p2 c1 c2 h1 h2 heq
    cases p2 with
    | nil => simpa using heq
    | cons y p2' =>
      exfalso
      simp only [List.nil_append, List.cons_append, List.cons.injEq] at heq
      exact h1 (heq.2 ▸ List.mem_append_right p2' (List.mem_cons_self _ _))
  | cons x p1' ih =>
    intro p2 c1 c2 h1 h2 heq
    cases p2 with
    | nil =>
      exfalso
      simp only [List.nil_append, List.cons_append, List.cons.injEq] at heq
      exact h2 (heq.2.symm ▸ List.mem_append_right p1' (List.mem_cons_self _ _))
    | cons y p2' =>
      simp only [List.cons_append, List.cons.injEq] at heq
      obtain ⟨hxy, heq'⟩ := heq
      obtain ⟨hp, hc⟩ := ih p2' c1 c2 h1 h2 heq'
      exact ⟨by rw [hxy, hp], hc⟩

/-- Where a slash-boundary prefix can sit inside `yp ++ "/" ++ code` with
  `code` slash-free: at `yp` itself, or strictly inside `yp`. -/
theorem slash_prefix_cases (old yp code : List Char) (hc : '/' ∉ code)
    (hpre : (old ++ ['/']) <+: (yp ++ '/' :: code)) :
    old = yp ∨ (old ++ ['/']) <+: yp := by
  rcases Nat.lt_trichotomy old.length yp.length with hlt | heq | hgt
  · right
    refine List.prefix_of_prefix_length_le hpre
      (List.prefix_append yp ('/' :: code)) ?_
    simp only [List.length_append, List.length_cons, List.length_nil]
    omega
  · left
    have hold : old <+: (yp ++ '/' :: code) :=
      ((List.prefix_append old ['/']).trans hpre)
    have hyp : yp <+: (yp ++ '/' :: code) := List.prefix_append yp _
    exact List.IsPrefix.eq_of_length
      (List.prefix_of_prefix_length_le hold hyp (le_of_eq heq)) heq
  · exfalso
    have hold : old <+: (yp ++ '/' :: code) :=
      ((List.prefix_append old ['/']).trans hpre)
    have hyp : yp <+: (yp ++ '/' :: code) := List.prefix_append yp _
    have hyo : yp <+: old :=
      List.prefix_of_prefix_length_le hyp hold (le_of_lt hgt)
    obtain ⟨rest, rfl⟩ := hyo
    have hrest : rest ≠ [] := by
      intro h
      rw [h] at hgt
      simp at hgt
    have : rest ++ ['/'] <+: '/' :: code := by
      have := hpre
      rw [List.append_assoc] at this
      exact (List.prefix_append_right_inj yp).mp this
    cases rest with
    | nil => exact hrest rfl
    | cons r0 rest' =>
      obtain ⟨t, ht⟩ := this
      simp only [List.cons_append, List.cons.injEq] at ht
      have : '/' ∈ code := by
        rw [← ht.2]
        exact List.mem_append.mpr (Or.inl
          (List.mem_append_right rest' (List.mem_cons_self _ _)))
      exact hc this

/-! ### C5: generated codes are slash-free; basic query facts -/

theorem pyDigitChar_ne_slash (k : Nat) : pyDigitChar k ≠ '/' := by
  match k with
  | 0 => decide
  | 1 => decide
  | 2 => decide
  | 3 => decide
  | 4 => decide
  | 5 => decide
  | 6 => decide
  | 7 => decide
  | 8 => decide
  | n + 9 => exact (by decide : ('9' : Char) ≠ '/')

theorem natCharsAux_ne_slash (fuel : Nat) :
    ∀ n, '/' ∉ natCharsAux fuel n := by
  induction fuel with
  | zero => intro n; simp [natCharsAux]
  | succ fuel ih =>
    intro n
    by_cases h : n < 10
    · simp only [natCharsAux, if_pos h]
      simp [Ne.symm (pyDigitChar_ne_slash n)]
    · simp only [natCharsAux, if_neg h]
      intro hmem
      rcases List.mem_append.mp hmem with hm | hm
      · exact ih (n / 10) hm
      · simp at hm
        exact pyDigitChar_ne_slash (n % 10) hm.symm

theorem slashFree_genTaskCode (s : HState) : slashFree (genTaskCode s) := by
  intro hmem
  rw [show genTaskCode s = "TASK-" ++ pyFormat03d (s.length + 1) from rfl,
    String.data_append] at hmem
  rcases List.mem_append.mp hmem with hm | hm
  · simp at hm
  · rw [show (pyFormat03d (s.length + 1)).data =
      List.replicate (3 - (natChars (s.length + 1)).length) '0' ++
        natChars (s.length + 1) from rfl] at hm
    rcases List.mem_append.mp hm with hm2 | hm2
    · have := List.eq_of_mem_replicate hm2
      simp at this
    · exact natCharsAux_ne_slash _ _ hm2

theorem pyDigitChar_ne_wild (k : Nat) :
    pyDigitChar k ≠ '%' ∧ pyDigitChar k ≠ '_' := by
  match k with
  | 0 => exact ⟨by decide, by decide⟩
  | 1 => exact ⟨by decide, by decide⟩
  | 2 => exact ⟨by decide, by decide⟩
  | 3 => exact ⟨by decide, by decide⟩
  | 4 => exact ⟨by decide, by decide⟩
  | 5 => exact ⟨by decide, by decide⟩
  | 6 => exact ⟨by decide, by decide⟩
  | 7 => exact ⟨by decide, by decide⟩
  | 8 => exact ⟨by decide, by decide⟩
  | n + 9 =>
    exact ⟨(by decide : ('9' : Char) ≠ '%'), (by decide : ('9' : Char) ≠ '_')⟩

theorem natCharsAux_wild (fuel : Nat) :
    ∀ n c, c ∈ natCharsAux fuel n → c ≠ '%' ∧ c ≠ '_' := by
  induction fuel with
  | zero =>
    intro n c hc
    simp [natCharsAux] at hc
  | succ fuel ih =>
    intro n c hc
    by_cases h : n < 10
    · simp only [natCharsAux, if_pos h, List.mem_singleton] at hc
      rw [hc]
      exact pyDigitChar_ne_wild n
    · simp only [natCharsAux, if_neg h] at hc
      rcases List.mem_append.mp hc with hm | hm
      · exact ih (n / 10) c hm
      · simp only [List.mem_singleton] at hm
        rw [hm]
        exact pyDigitChar_ne_wild (n % 10)

theorem wildFree_genTaskCode (s : HState) : wildFree (genTaskCode s) := by
  intro c hc
  rw [show genTaskCode s = "TASK-" ++ pyFormat03d (s.length + 1) from rfl,
    String.data_append] at hc
  rcases List.mem_append.mp hc with hm | hm
  · rw [show ("TASK-" : String).data = ['T', 'A', 'S', 'K', '-'] from rfl]
      at hm
    simp only [List.mem_cons, List.not_mem_nil, or_false] at hm
    rcases hm with rfl | rfl | rfl | rfl | rfl <;> exact ⟨by decide, by decide⟩
  · rw [show (pyFormat03d (s.length + 1)).data =
      List.replicate (3 - (natChars (s.length + 1)).length) '0' ++
        natChars (s.length + 1) from rfl] at hm
    rcases List.mem_append.mp hm with hm2 | hm2
    · rw [List.eq_of_mem_replicate hm2]
      exact ⟨by decide, by decide⟩
    · exact natCharsAux_wild _ _ c hm2

theorem findTask_some_facts (s : HState) (tid : Nat) (t : HTask)
    (h : findTask s tid = some t) : t ∈ s ∧ t.id = tid := by
  refine ⟨List.mem_of_find?_eq_some h, ?_⟩
  have := List.find?_some h
  simpa using this

theorem findTask_of_mem (s : HState) (t : HTask)
    (hids : (s.map (fun u => u.id)).Nodup) (hmem : t ∈ s) :
    findTask s t.id = some t := by
  induction s with
  | nil => simp at hmem
  | cons u us ih =>
    rcases List.mem_cons.mp hmem with rfl | hmem'
    · simp [findTask, List.find?_cons]
    · have hne : u.id ≠ t.id := by
        intro hcon
        have : u.id ∈ us.map (fun x => x.id) :=
          hcon ▸ List.mem_map_of_mem _ hmem'
        simp only [List.map_cons, List.nodup_cons] at hids
        exact hids.1 this
      have hb : (u.id == t.id) = false := by simp [hne]
      have hids' : (us.map (fun u => u.id)).Nodup := by
        simp only [List.map_cons, List.nodup_cons] at hids
        exact hids.2
      simpa [findTask, List.find?_cons, hb] using ih hids' hmem'

theorem lt_freshId (s : HState) (t : HTask) (hmem : t ∈ s) :
    t.id < freshId s := by
  have : t.id ≤ (s.map (fun u => u.id)).foldr max 0 := by
    have hm : t.id ∈ s.map (fun u => u.id) := List.mem_map_of_mem _ hmem
    clear hmem
    induction s with
    | nil => simp at hm
    | cons u us ih =>
      simp only [List.map_cons, List.foldr_cons]
      rcases List.mem_cons.mp hm with heq | hmem'
      · rw [heq]; exact le_max_left _ _
      · exact le_trans (ih hmem') (le_max_right _ _)
  simpa [freshId] using Nat.lt_succ_of_le this

/-- Distinct ids make id lookup injective on the rows. -/
theorem eq_of_mem_id (s : HState) (hids : (s.map (fun u => u.id)).Nodup)
    (u v : HTask) (hu : u ∈ s) (hv : v ∈ s) (h : u.id = v.id) : u = v :=
  List.inj_on_of_nodup_map hids hu hv h

/-! ### C5: invariant preservation for `create_task` -/

theorem path_data_parent (y : HTask) (u : HTask)
    (h : u.path = y.path ++ "/" ++ u.code) :
    u.path.data = y.path.data ++ '/' :: u.code.data := by
  rw [h, String.data_append, String.data_append]
  rw [show ("/" : String).data = ['/'] from rfl, List.append_assoc]
  rfl

/-- Under the invariant, every slash-boundary prefix of a task's path is
  itself some task's path (the ancestor chain realizes every prefix). -/
theorem path_prefix_realized (s : HState) (hinv : StateInv s) :
    ∀ (u : HTask), u ∈ s → ∀ q : List Char,
      (q ++ ['/']) <+: u.path.data → ∃ w ∈ s, w.path.data = q := by
  obtain ⟨hids, hcodes, hpaths, hsf, hlev, hpar, hroot, hwc, hwp⟩ := hinv
  suffices H : ∀ n, ∀ u, u ∈ s → u.path.data.length ≤ n →
      ∀ q : List Char, (q ++ ['/']) <+: u.path.data →
        ∃ w ∈ s, w.path.data = q by
    intro u hu q hq
    exact H u.path.data.length u hu le_rfl q hq
  intro n
  induction n with
  | zero =>
    intro u hu hlen q hq
    exfalso
    have := hq.length_le
    simp only [List.length_append, List.length_cons, List.length_nil] at this
    omega
  | succ n ih =>
    intro u hu hlen q hq
    cases hp : u.parent with
    | none =>
      exfalso
      have hpc := hroot u hu hp
      have hmem : '/' ∈ u.path.data := hq.sublist.mem
        (List.mem_append_right q (List.mem_cons_self _ _))
      rw [hpc] at hmem
      exact hsf u hu hmem
    | some pid =>
      obtain ⟨y, hy, hyid, hyeq⟩ := hpar u hu pid hp
      have hdata := path_data_parent y u hyeq
      rw [hdata] at hq
      rcases slash_prefix_cases q y.path.data u.code.data (hsf u hu) hq with
        heq | hpre
      · exact ⟨y, hy, heq.symm⟩
      · refine ih y hy ?_ q hpre
        have : u.path.data.length =
            y.path.data.length + 1 + u.code.data.length := by
          rw [hdata]
          simp
          omega
        omega

theorem StateInv_append_new (s : HState) (t : HTask) (hinv : StateInv s)
    (hid : ∀ u ∈ s, u.id ≠ t.id)
    (hcode : ∀ u ∈ s, u.code ≠ t.code)
    (hpath : ∀ u ∈ s, u.path ≠ t.path)
    (hsf : slashFree t.code)
    (hlev : t.level = (countSlash t.path : Int))
    (hpar : ∀ pid, t.parent = some pid →
      ∃ p ∈ s, p.id = pid ∧ t.path = p.path ++ "/" ++ t.code)
    (hroot : t.parent = none → t.path = t.code)
    (hwcode : wildFree t.code) (hwpath : wildFree t.path) :
    StateInv (s ++ [t]) := by
  obtain ⟨h1, h2, h3, h4, h5, h6, h7, h8, h9⟩ := hinv
  refine ⟨?_, ?_, ?_, ?_, ?_, ?_, ?_, ?_, ?_⟩
  · rw [List.map_append, List.nodup_append]
    refine ⟨h1, by simp, ?_⟩
    intro x hx
    simp only [List.map_cons, List.map_nil, List.mem_singleton]
    obtain ⟨u, hu, rfl⟩ := List.mem_map.mp hx
    simpa using hid u hu
  · rw [List.map_append, List.nodup_append]
    refine ⟨h2, by simp, ?_⟩
    intro x hx
    simp only [List.map_cons, List.map_nil, List.mem_singleton]
    obtain ⟨u, hu, rfl⟩ := List.mem_map.mp hx
    simpa using hcode u hu
  · rw [List.map_append, List.nodup_append]
    refine ⟨h3, by simp, ?_⟩
    intro x hx
    simp only [List.map_cons, List.map_nil, List.mem_singleton]
    obtain ⟨u, hu, rfl⟩ := List.mem_map.mp hx
    simpa using hpath u hu
  · intro u hu
    rcases List.mem_append.mp hu with hm | hm
    · exact h4 u hm
    · rw [List.mem_singleton.mp hm]
      exact hsf
  · intro u hu
    rcases List.mem_append.mp hu with hm | hm
    · exact h5 u hm
    · rw [List.mem_singleton.mp hm]
      exact hlev
  · intro u hu pid hp
    rcases List.mem_append.mp hu with hm | hm
    · obtain ⟨p, hpm, hps⟩ := h6 u hm pid hp
      exact ⟨p, List.mem_append_left _ hpm, hps⟩
    · rw [List.mem_singleton.mp hm] at hp ⊢
      obtain ⟨p, hpm, hps⟩ := hpar pid hp
      exact ⟨p, List.mem_append_left _ hpm, hps⟩
  · intro u hu hp
    rcases List.mem_append.mp hu with hm | hm
    · exact h7 u hm hp
    · rw [List.mem_singleton.mp hm] at hp ⊢
      exact hroot hp
  · intro u hu
    rcases List.mem_append.mp hu with hm | hm
    · exact h8 u hm
    · rw [List.mem_singleton.mp hm]
      exact hwcode
  · intro u hu
    rcases List.mem_append.mp hu with hm | hm
    · exact h9 u hm
    · rw [List.mem_singleton.mp hm]
      exact hwpath

/-- Invariant preservation for the core of `create_task`, for an
  arbitrary slash-free effective code. -/
theorem createTask_core_inv (s : HState) (code : String)
    (parent? : Option Nat) (s' : HState) (hinv : StateInv s)
    (hsf : slashFree code) (hwf : wildFree code)
    (h : (if (s.find? (fun t => t.code == code)).isSome then
        (.error ("Task code " ++ code ++ " already exists") :
          Except String HState)
      else
        match parent? with
        | none => .ok (s ++ [⟨freshId s, code, none, 0, code, 0⟩])
        | some pid =>
          match findTask s pid with
          | none => .error ("Parent task not found")
          | some p =>
            .ok (s ++ [⟨freshId s, code, some pid, p.level + 1,
                        p.path ++ "/" ++ code, 0⟩])) = .ok s') :
    StateInv s' := by
  by_cases hf : (s.find? (fun t => t.code == code)).isSome
  · rw [if_pos hf] at h
    simp at h
  · rw [if_neg hf] at h
    have hfresh : ∀ u ∈ s, u.code ≠ code := by
      intro u hu hcon
      exact hf (List.find?_isSome.mpr ⟨u, hu, by simp [hcon]⟩)
    have hidne : ∀ u ∈ s, u.id ≠ freshId s := by
      intro u hu
      exact Nat.ne_of_lt (lt_freshId s u hu)
    obtain ⟨h1, h2, h3, h4, h5, h6, h7, hw8, hw9⟩ := hinv
    match parent? with
    | none =>
      have hs' : s' = s ++ [⟨freshId s, code, none, 0, code, 0⟩] := by
        simpa using h.symm
      rw [hs']
      refine StateInv_append_new s _ ⟨h1, h2, h3, h4, h5, h6, h7, hw8, hw9⟩
        hidne hfresh ?_ hsf ?_ ?_ ?_ hwf hwf
      · intro u hu hcon
        rcases hpu : u.parent with _ | pid
        · exact hfresh u hu ((h7 u hu hpu) ▸ hcon)
        · obtain ⟨p, hpm, _, hps⟩ := h6 u hu pid hpu
          have : '/' ∈ u.path.data := by
            rw [path_data_parent p u hps]
            exact List.mem_append_right _ (List.mem_cons_self _ _)
          rw [hcon] at this
          exact hsf this
      · show (0 : Int) = (countSlash code : Int)
        rw [countSlash_slashFree code hsf]
        rfl
      · intro pid hp
        simp at hp
      · intro _
        rfl
    | some pid =>
      have h9 : (match findTask s pid with
        | none => (Except.error "Parent task not found" : Except String HState)
        | some p =>
          Except.ok (s ++ [⟨freshId s, code, some pid, p.level + 1,
            p.path ++ "/" ++ code, 0⟩])) = Except.ok s' := h
      match hft : findTask s pid with
      | none =>
        rw [hft] at h9
        simp at h9
      | some p =>
        rw [hft] at h9
        have hs' : s' = s ++ [⟨freshId s, code, some pid, p.level + 1,
            p.path ++ "/" ++ code, 0⟩] := by
          simpa using h9.symm
        obtain ⟨hpm, hpid⟩ := findTask_some_facts s pid p hft
        rw [hs']
        refine StateInv_append_new s _ ⟨h1, h2, h3, h4, h5, h6, h7, hw8, hw9⟩
          hidne hfresh ?_ hsf ?_ ?_ ?_ hwf
          (wildFree_parent p.path code (hw9 p hpm) hwf)
        · intro u hu hcon
          rcases hpu : u.parent with _ | pid'
          · have hupath : u.path = u.code := h7 u hu hpu
            have : '/' ∈ u.code.data := by
              rw [← hupath, hcon, String.data_append, String.data_append]
              exact List.mem_append.mpr (Or.inl
                (List.mem_append_right _ (by simp)))
            exact h4 u hu this
          · obtain ⟨y, hym, _, hys⟩ := h6 u hu pid' hpu
            have hdu := path_data_parent y u hys
            have hdnew : u.path.data = p.path.data ++ '/' :: code.data := by
              rw [hcon, String.data_append, String.data_append]
              rw [show ("/" : String).data = ['/'] from rfl,
                List.append_assoc]
              rfl
            rw [hdnew] at hdu
            obtain ⟨_, hcs⟩ := sep_inj p.path.data y.path.data code.data
              u.code.data hsf (h4 u hu) hdu
            exact hfresh u hu (String.ext hcs.symm)
        · show p.level + 1 = (countSlash (p.path ++ "/" ++ code) : Int)
          rw [countSlash_append, countSlash_append, countSlash_slash,
            countSlash_slashFree code hsf, h5 p hpm]
          push_cast
          ring
        · intro pid' hp
          have hpe : pid' = pid := by
            have := hp
            simp at this
            omega
          exact ⟨p, hpm, by rw [hpe, hpid], rfl⟩
        · intro hcon
          simp at hcon

/-- Invariant preservation for `create_task` proper: the generated code is
  slash-free, a supplied non-empty code is slash-free by precondition. -/
theorem createTask_inv (s : HState) (code? : Option String)
    (parent? : Option Nat) (s' : HState) (hinv : StateInv s)
    (hgood : ∀ c, code? = some c → c ≠ "" → slashFree c ∧ wildFree c)
    (h : createTask s code? parent? = .ok s') : StateInv s' := by
  match code? with
  | none =>
    exact createTask_core_inv s (genTaskCode s) parent? s' hinv
      (slashFree_genTaskCode s) (wildFree_genTaskCode s) h
  | some c =>
    by_cases hc : c = ""
    · simp only [createTask, hc, if_pos rfl] at h
      exact createTask_core_inv s (genTaskCode s) parent? s' hinv
        (slashFree_genTaskCode s) (wildFree_genTaskCode s) h
    · simp only [createTask, if_neg hc] at h
      exact createTask_core_inv s c parent? s' hinv (hgood c rfl hc).1
        (hgood c rfl hc).2 h

/-! ### C5: invariant preservation for `move_task` -/

/-- A pattern that is just `'%'` matches everything (given enough fuel). -/
theorem sqlLikeAux_pct_all : ∀ (s : List Char) (fuel : Nat),
    s.length + 2 ≤ fuel → sqlLikeAux fuel ['%'] s = true := by
  intro s
  induction s with
  | nil =>
    intro fuel hf
    obtain ⟨f, rfl⟩ : ∃ f, fuel = f + 2 := ⟨fuel - 2, by omega⟩
    rfl
  | cons d s' ih =>
    intro fuel hf
    obtain ⟨f, rfl⟩ : ∃ f, fuel = f + 1 := ⟨fuel - 1, by omega⟩
    have hrec : sqlLikeAux f ['%'] s' = true := by
      refine ih f ?_
      simp only [List.length_cons] at hf
      omega
    simp only [sqlLikeAux]
    simp [hrec]

/-- On a wildcard-free pattern part `l`, the pattern `l ++ "%"` matches a
  string exactly when `l` is a prefix of it: the LIKE query degenerates to
  the literal prefix test. -/
theorem sqlLikeAux_lit_pct : ∀ (l : List Char),
    (∀ c ∈ l, c ≠ '%' ∧ c ≠ '_') →
    ∀ (s : List Char) (fuel : Nat), l.length + s.length + 2 ≤ fuel →
      (sqlLikeAux fuel (l ++ ['%']) s = true ↔ l <+: s) := by
  intro l
  induction l with
  | nil =>
    intro _ s fuel hf
    constructor
    · intro _
      exact List.nil_prefix
    · intro _
      exact sqlLikeAux_pct_all s fuel (by simpa using hf)
  | cons c l' ih =>
    intro hl s fuel hf
    have hc : c ≠ '%' ∧ c ≠ '_' := hl c (List.mem_cons_self _ _)
    have hl' : ∀ x ∈ l', x ≠ '%' ∧ x ≠ '_' :=
      fun x hx => hl x (List.mem_cons_of_mem _ hx)
    obtain ⟨f, rfl⟩ : ∃ f, fuel = f + 1 := ⟨fuel - 1, by omega⟩
    cases s with
    | nil =>
      rw [show ((c :: l') ++ ['%']) = c :: (l' ++ ['%']) from rfl]
      simp only [sqlLikeAux]
      rw [if_neg hc.1]
      simp
    | cons d s' =>
      rw [show ((c :: l') ++ ['%']) = c :: (l' ++ ['%']) from rfl]
      simp only [sqlLikeAux]
      rw [if_neg hc.1]
      have hcu : (c == '_') = false := by simp [hc.2]
      rw [hcu, Bool.false_or, List.cons_prefix_cons, Bool.and_eq_true,
        ih hl' s' f (by
          simp only [List.length_cons, List.length_append] at hf ⊢
          omega),
        beq_iff_eq]

theorem likeSlashPrefix_iff (p q : String) (hw : wildFree p) :
    likeSlashPrefix p q = true ↔ (p.data ++ ['/']) <+: q.data := by
  have hl : ∀ c ∈ p.data ++ ['/'], c ≠ '%' ∧ c ≠ '_' := by
    intro c hcm
    rcases List.mem_append.mp hcm with hm | hm
    · exact hw c hm
    · rw [List.mem_singleton.mp hm]
      exact ⟨by decide, by decide⟩
  have hmain := sqlLikeAux_lit_pct (p.data ++ ['/']) hl q.data
    (p.data.length + q.data.length + 3)
    (by
      simp only [List.length_append, List.length_cons, List.length_nil]
      omega)
  have hpat : (p.data ++ ['/']) ++ ['%'] = p.data ++ ['/', '%'] := by
    rw [List.append_assoc]
    rfl
  rw [hpat] at hmain
  exact hmain

theorem desc_shape (old : String) (u : HTask) (hw : wildFree old)
    (h : likeSlashPrefix old u.path = true) :
    ∃ r : List Char, u.path.data = old.data ++ '/' :: r := by
  obtain ⟨t, ht⟩ := (likeSlashPrefix_iff old u.path hw).mp h
  exact ⟨t, by rw [← ht, List.append_assoc]; rfl⟩

theorem sliceFrom_desc (old : String) (u : HTask) (r : List Char)
    (h : u.path.data = old.data ++ '/' :: r) :
    sliceFrom u.path old.data.length = String.mk ('/' :: r) := by
  simp only [sliceFrom, h]
  congr 1
  exact List.drop_left old.data ('/' :: r)

/-- The moved-subtree rewrite function of `move_task`. -/
def moveF (s : HState) (tid : Nat) (np? : Option Nat) (task : HTask)
    (newLevel : Int) (newPath : String) (t : HTask) : HTask :=
  if t.id == tid then
    ⟨t.id, t.code, np?, newLevel, newPath, t.progress⟩
  else if ((s.filter (fun v => likeSlashPrefix task.path v.path)).map
      (fun v => v.id)).contains t.id then
    { t with path := newPath ++ sliceFrom t.path task.path.data.length,
             level := t.level + (newLevel - task.level) }
  else t

theorem moveF_id (s : HState) (tid : Nat) (np? : Option Nat) (task : HTask)
    (newLevel : Int) (newPath : String) (t : HTask) :
    (moveF s tid np? task newLevel newPath t).id = t.id := by
  simp only [moveF]
  split
  · rfl
  · split <;> rfl

theorem moveF_code (s : HState) (tid : Nat) (np? : Option Nat)
    (task : HTask) (newLevel : Int) (newPath : String) (t : HTask) :
    (moveF s tid np? task newLevel newPath t).code = t.code := by
  simp only [moveF]
  split
  · rfl
  · split <;> rfl

theorem moveF_progress (s : HState) (tid : Nat) (np? : Option Nat)
    (task : HTask) (newLevel : Int) (newPath : String) (t : HTask) :
    (moveF s tid np? task newLevel newPath t).progress = t.progress := by
  simp only [moveF]
  split
  · rfl
  · split <;> rfl

theorem likeSlashPrefix_self_false (p : String) (hw : wildFree p) :
    likeSlashPrefix p p = false := by
  rw [Bool.eq_false_iff]
  intro hc
  have := ((likeSlashPrefix_iff p p hw).mp hc).length_le
  simp at this

theorem StateInv_map_moveF (s : HState) (tid : Nat) (np? : Option Nat)
    (task : HTask) (newLevel : Int) (newPath : String)
    (hinv : StateInv s)
    (hmem : task ∈ s) (htid : task.id = tid)
    (hlevel : newLevel = (countSlash newPath : Int))
    (hK4 : ∀ u ∈ s, u ≠ task → u.path ≠ newPath)
    (hWnew : wildFree newPath)
    (hparent : match np? with
      | none => newPath = task.code
      | some pid => ∃ np0 ∈ s, np0.id = pid ∧ np0 ≠ task ∧
          likeSlashPrefix task.path np0.path = false ∧
          newPath = np0.path ++ "/" ++ task.code) :
    StateInv (s.map (moveF s tid np? task newLevel newPath)) := by
  obtain ⟨h1, h2, h3, h4, h5, h6, h7, h8, h9⟩ := hinv
  have hWtask : wildFree task.path := h9 task hmem
  set F := moveF s tid np? task newLevel newPath with hF
  set descIds := ((s.filter (fun v => likeSlashPrefix task.path v.path)).map
    (fun v => v.id)) with hdescIds
  have hinj_id : ∀ u ∈ s, ∀ v ∈ s, u.id = v.id → u = v :=
    fun u hu v hv h => List.inj_on_of_nodup_map h1 hu hv h
  have hinj_path : ∀ u ∈ s, ∀ v ∈ s, u.path = v.path → u = v :=
    fun u hu v hv h => List.inj_on_of_nodup_map h3 hu hv h
  have hid_eq_task : ∀ u ∈ s, u.id = tid → u = task := by
    intro u hu h
    exact hinj_id u hu task hmem (by rw [h, htid])
  have hdesc_iff : ∀ u ∈ s,
      (descIds.contains u.id = true ↔
        likeSlashPrefix task.path u.path = true) := by
    intro u hu
    constructor
    · intro hc
      have : u.id ∈ descIds := by simpa using hc
      rw [hdescIds] at this
      obtain ⟨v, hv, hvid⟩ := List.mem_map.mp this
      obtain ⟨hvs, hvp⟩ := List.mem_filter.mp hv
      rwa [hinj_id u hu v hvs hvid.symm]
    · intro hp
      have : u.id ∈ descIds := by
        rw [hdescIds]
        exact List.mem_map_of_mem _ (List.mem_filter.mpr ⟨hu, hp⟩)
      simpa using this
  have hdesc_ne_tid : ∀ u ∈ s, likeSlashPrefix task.path u.path = true →
      u.id ≠ tid := by
    intro u hu hp hc
    have := hid_eq_task u hu hc
    rw [this, likeSlashPrefix_self_false task.path hWtask] at hp
    simp at hp
  have hK5 : ∀ u ∈ s, likeSlashPrefix task.path u.path = false →
      u.id ≠ tid → ¬ (newPath.data ++ ['/']) <+: u.path.data := by
    intro u hu hnd hnid hpre
    obtain ⟨w, hw, hwp⟩ := path_prefix_realized s
      ⟨h1, h2, h3, h4, h5, h6, h7, h8, h9⟩ u hu newPath.data hpre
    have hwpath : w.path = newPath := String.ext hwp
    by_cases hwt : w = task
    · rw [hwt] at hwpath
      have hlike : likeSlashPrefix task.path u.path = true := by
        rw [likeSlashPrefix_iff task.path u.path hWtask, hwpath]
        exact hpre
      rw [hlike] at hnd
      simp at hnd
    · exact hK4 w hw hwt hwpath
  have hFid : ∀ t : HTask, (F t).id = t.id := fun t =>
    moveF_id s tid np? task newLevel newPath t
  have hFcode : ∀ t : HTask, (F t).code = t.code := fun t =>
    moveF_code s tid np? task newLevel newPath t
  have hF_T : ∀ u : HTask, u.id = tid →
      F u = ⟨u.id, u.code, np?, newLevel, newPath, u.progress⟩ := by
    intro u h
    simp [hF, moveF, h]
  have hF_D : ∀ u ∈ s, u.id ≠ tid → likeSlashPrefix task.path u.path = true →
      F u = { u with
        path := newPath ++ sliceFrom u.path task.path.data.length,
        level := u.level + (newLevel - task.level) } := by
    intro u hu hne hlike
    have hc : ((s.filter (fun v => likeSlashPrefix task.path v.path)).map
        (fun v => v.id)).contains u.id = true := (hdesc_iff u hu).mpr hlike
    simp only [hF, moveF]
    rw [if_neg (by simp [hne]), if_pos hc]
  have hF_U : ∀ u ∈ s, u.id ≠ tid →
      likeSlashPrefix task.path u.path = false → F u = u := by
    intro u hu hne hlike
    have hc : ((s.filter (fun v => likeSlashPrefix task.path v.path)).map
        (fun v => v.id)).contains u.id = false := by
      cases hval : descIds.contains u.id with
      | false => rfl
      | true =>
        rw [(hdesc_iff u hu).mp hval] at hlike
        simp at hlike
    have hc' : ¬ (((s.filter (fun v => likeSlashPrefix task.path v.path)).map
        (fun v => v.id)).contains u.id = true) := by
      rw [hc]
      exact Bool.false_ne_true
    simp only [hF, moveF]
    rw [if_neg (by simp [hne]), if_neg hc']
  have hDpath : ∀ u ∈ s, u.id ≠ tid →
      likeSlashPrefix task.path u.path = true →
      ∀ r : List Char, u.path.data = task.path.data ++ '/' :: r →
      (F u).path.data = newPath.data ++ '/' :: r := by
    intro u hu hne hlike r hr
    rw [hF_D u hu hne hlike]
    show (newPath ++ sliceFrom u.path task.path.data.length).data = _
    rw [sliceFrom_desc task.path u r hr, String.data_append]
  have hpaths_inj : ∀ u ∈ s, ∀ v ∈ s, (F u).path = (F v).path → u = v := by
    have key : ∀ u ∈ s, ∀ v ∈ s, u.id = tid →
        (F u).path = (F v).path → u = v := by
      intro u hu v hv huT heq
      by_cases hvT : v.id = tid
      · rw [hid_eq_task u hu huT, hid_eq_task v hv hvT]
      · rw [hF_T u huT] at heq
        have heq' : newPath = (F v).path := heq
        by_cases hvD : likeSlashPrefix task.path v.path = true
        · exfalso
          obtain ⟨r, hr⟩ := desc_shape task.path v hWtask hvD
          have hvd := hDpath v hv hvT hvD r hr
          rw [← heq'] at hvd
          have hlen := congrArg List.length hvd
          rw [List.length_append, List.length_cons] at hlen
          omega
        · have hFv : F v = v := hF_U v hv hvT (Bool.eq_false_iff.mpr hvD)
          rw [hFv] at heq'
          exact absurd heq'.symm
            (hK4 v hv (fun hcx => hvT (by rw [hcx]; exact htid)))
    have keyD : ∀ u ∈ s, ∀ v ∈ s, u.id ≠ tid →
        likeSlashPrefix task.path u.path = true →
        (F u).path = (F v).path → u = v := by
      intro u hu v hv huid hulike heq
      obtain ⟨r1, hr1⟩ := desc_shape task.path u hWtask hulike
      have hud := hDpath u hu huid hulike r1 hr1
      by_cases hvT : v.id = tid
      · exact (key v hv u hu hvT heq.symm).symm
      · by_cases hvD : likeSlashPrefix task.path v.path = true
        · obtain ⟨r2, hr2⟩ := desc_shape task.path v hWtask hvD
          have hvd := hDpath v hv hvT hvD r2 hr2
          have hdd : newPath.data ++ '/' :: r1 = newPath.data ++ '/' :: r2 := by
            rw [← hud, ← hvd, heq]
          have hr12 : r1 = r2 := by
            have h' := List.append_cancel_left hdd
            simpa using h'
          refine hinj_path u hu v hv (String.ext ?_)
          rw [hr1, hr2, hr12]
        · have hFv : F v = v := hF_U v hv hvT (Bool.eq_false_iff.mpr hvD)
          rw [hFv] at heq
          exfalso
          refine hK5 v hv (Bool.eq_false_iff.mpr hvD) hvT ?_
          rw [← heq]
          exact ⟨r1, by rw [hud, List.append_assoc]; rfl⟩
    intro u hu v hv heq
    by_cases huT : u.id = tid
    · exact key u hu v hv huT heq
    · by_cases huD : likeSlashPrefix task.path u.path = true
      · exact keyD u hu v hv huT huD heq
      · have hFu : F u = u := hF_U u hu huT (Bool.eq_false_iff.mpr huD)
        by_cases hvT : v.id = tid
        · exact (key v hv u hu hvT heq.symm).symm
        · by_cases hvD : likeSlashPrefix task.path v.path = true
          · exact (keyD v hv u hu hvT hvD heq.symm).symm
          · have hFv : F v = v := hF_U v hv hvT (Bool.eq_false_iff.mpr hvD)
            rw [hFu, hFv] at heq
            exact hinj_path u hu v hv heq
  refine ⟨?_, ?_, ?_, ?_, ?_, ?_, ?_, ?_, ?_⟩
  · rw [List.map_map]
    have hcomp : ((fun t : HTask => t.id) ∘ F) = fun t : HTask => t.id :=
      funext fun t => hFid t
    rw [hcomp]
    exact h1
  · rw [List.map_map]
    have hcomp : ((fun t : HTask => t.code) ∘ F) = fun t : HTask => t.code :=
      funext fun t => hFcode t
    rw [hcomp]
    exact h2
  · rw [List.map_map]
    refine List.Nodup.map_on ?_ (List.Nodup.of_map _ h1)
    intro u hu v hv heq
    exact hpaths_inj u hu v hv heq
  · intro t ht
    obtain ⟨u, hu, rfl⟩ := List.mem_map.mp ht
    rw [hFcode]
    exact h4 u hu
  · intro t ht
    obtain ⟨u, hu, rfl⟩ := List.mem_map.mp ht
    by_cases huT : u.id = tid
    · rw [hF_T u huT]
      exact hlevel
    · by_cases huD : likeSlashPrefix task.path u.path = true
      · obtain ⟨r, hr⟩ := desc_shape task.path u hWtask huD
        have hpd := hDpath u hu huT huD r hr
        have hlev' : (F u).level = u.level + (newLevel - task.level) := by
          rw [hF_D u hu huT huD]
        have hcu : countSlash u.path =
            countSlash task.path + (r.count '/' + 1) := by
          show u.path.data.count '/' = _
          rw [hr, List.count_append, List.count_cons_self]
          rfl
        have hcF : countSlash (F u).path =
            countSlash newPath + (r.count '/' + 1) := by
          show (F u).path.data.count '/' = _
          rw [hpd, List.count_append, List.count_cons_self]
          rfl
        have h5u := h5 u hu
        have h5t := h5 task hmem
        rw [hlev', hcF]
        rw [hcu] at h5u
        omega
      · have hFu : F u = u := hF_U u hu huT (Bool.eq_false_iff.mpr huD)
        rw [hFu]
        exact h5 u hu
  · intro t ht pid' hp
    obtain ⟨u, hu, rfl⟩ := List.mem_map.mp ht
    by_cases huT : u.id = tid
    · rw [hF_T u huT] at hp ⊢
      have hp' : np? = some pid' := hp
      rw [hp'] at hparent
      have hpar2 : ∃ np0 ∈ s, np0.id = pid' ∧ np0 ≠ task ∧
          likeSlashPrefix task.path np0.path = false ∧
          newPath = np0.path ++ "/" ++ task.code := hparent
      obtain ⟨np0, hnp0, hnpid, hnptask, hnplike, hnpeq⟩ := hpar2
      have hnpid' : np0.id ≠ tid := fun hcx =>
        hnptask (hid_eq_task np0 hnp0 hcx)
      have hFnp : F np0 = np0 := hF_U np0 hnp0 hnpid' hnplike
      refine ⟨F np0, List.mem_map_of_mem F hnp0, ?_, ?_⟩
      · rw [hFnp]
        exact hnpid
      · show newPath = (F np0).path ++ "/" ++ u.code
        rw [hFnp, hnpeq, hid_eq_task u hu huT]
    · by_cases huD : likeSlashPrefix task.path u.path = true
      · obtain ⟨r, hr⟩ := desc_shape task.path u hWtask huD
        have hpar_eq : (F u).parent = u.parent := by
          rw [hF_D u hu huT huD]
        rw [hpar_eq] at hp
        obtain ⟨y, hy, hyid, hyeq⟩ := h6 u hu pid' hp
        have hydata := path_data_parent y u hyeq
        have hupre : (task.path.data ++ ['/']) <+: u.path.data :=
          (likeSlashPrefix_iff _ _ hWtask).mp huD
        rw [hydata] at hupre
        rcases slash_prefix_cases task.path.data y.path.data u.code.data
          (h4 u hu) hupre with hyp | hyp
        · -- the parent of the descendant is the moved task itself
          have hytask : y = task :=
            hinj_path y hy task hmem (String.ext hyp.symm)
          refine ⟨F task, List.mem_map_of_mem F hmem, ?_, ?_⟩
          · rw [hFid]
            rw [← hyid, hytask]
          · have hrcode : r = u.code.data := by
              have hx : task.path.data ++ '/' :: r =
                  task.path.data ++ '/' :: u.code.data := by
                rw [← hr, hydata, hytask]
              have h' := List.append_cancel_left hx
              simpa using h'
            have htp : (F task).path = newPath := by
              rw [hF_T task htid]
            refine String.ext ?_
            rw [hDpath u hu huT huD r hr]
            rw [String.data_append, String.data_append,
              show ("/" : String).data = ['/'] from rfl]
            rw [hFcode, htp, hrcode, List.append_assoc]
            rfl
        · -- the parent of the descendant is inside the moved subtree
          have hylike : likeSlashPrefix task.path y.path = true :=
            (likeSlashPrefix_iff _ _ hWtask).mpr hyp
          have hyid' : y.id ≠ tid := hdesc_ne_tid y hy hylike
          obtain ⟨ry, hry⟩ := desc_shape task.path y hWtask hylike
          have hyd := hDpath y hy hyid' hylike ry hry
          refine ⟨F y, List.mem_map_of_mem F hy, ?_, ?_⟩
          · rw [hFid]
            exact hyid
          · have hrdecomp : r = ry ++ '/' :: u.code.data := by
              have hx : task.path.data ++ '/' :: r =
                  task.path.data ++ '/' :: (ry ++ '/' :: u.code.data) := by
                rw [← hr, hydata, hry, List.append_assoc]
                rfl
              have h' := List.append_cancel_left hx
              simpa using h'
            refine String.ext ?_
            rw [hDpath u hu huT huD r hr]
            rw [String.data_append, String.data_append,
              show ("/" : String).data = ['/'] from rfl]
            rw [hFcode, hyd, hrdecomp]
            simp
      · have hFu : F u = u := hF_U u hu huT (Bool.eq_false_iff.mpr huD)
        rw [hFu] at hp ⊢
        obtain ⟨y, hy, hyid, hyeq⟩ := h6 u hu pid' hp
        have hydata := path_data_parent y u hyeq
        have hyT : y.id ≠ tid := by
          intro hcx
          have hyt : y = task := hid_eq_task y hy hcx
          refine huD ?_
          rw [likeSlashPrefix_iff task.path u.path hWtask, hydata, hyt]
          exact ⟨u.code.data, by simp⟩
        have hyD : likeSlashPrefix task.path y.path = false := by
          cases hval : likeSlashPrefix task.path y.path with
          | false => rfl
          | true =>
            exfalso
            refine huD ?_
            rw [likeSlashPrefix_iff task.path u.path hWtask, hydata]
            exact ((likeSlashPrefix_iff _ _ hWtask).mp hval).trans
              (List.prefix_append _ _)
        have hFy : F y = y := hF_U y hy hyT hyD
        exact ⟨F y, List.mem_map_of_mem F hy, by rw [hFy]; exact hyid,
          by rw [hFy]; exact hyeq⟩
  · intro t ht hp
    obtain ⟨u, hu, rfl⟩ := List.mem_map.mp ht
    by_cases huT : u.id = tid
    · rw [hF_T u huT] at hp ⊢
      have hp' : np? = none := hp
      rw [hp'] at hparent
      have hnp : newPath = task.code := hparent
      show newPath = u.code
      rw [hid_eq_task u hu huT]
      exact hnp
    · by_cases huD : likeSlashPrefix task.path u.path = true
      · exfalso
        have hpar_eq : (F u).parent = u.parent := by
          rw [hF_D u hu huT huD]
        rw [hpar_eq] at hp
        have hupath := h7 u hu hp
        obtain ⟨r, hr⟩ := desc_shape task.path u hWtask huD
        have hslash : '/' ∈ u.code.data := by
          have hmemp : '/' ∈ u.path.data := by
            rw [hr]
            exact List.mem_append_right _ (List.mem_cons_self _ _)
          rw [hupath] at hmemp
          exact hmemp
        exact h4 u hu hslash
      · have hFu : F u = u := hF_U u hu huT (Bool.eq_false_iff.mpr huD)
        rw [hFu] at hp ⊢
        exact h7 u hu hp
  · intro t ht
    obtain ⟨u, hu, rfl⟩ := List.mem_map.mp ht
    rw [hFcode]
    exact h8 u hu
  · intro t ht
    obtain ⟨u, hu, rfl⟩ := List.mem_map.mp ht
    by_cases huT : u.id = tid
    · rw [hF_T u huT]
      exact hWnew
    · by_cases huD : likeSlashPrefix task.path u.path = true
      · obtain ⟨r, hr⟩ := desc_shape task.path u hWtask huD
        have hpd := hDpath u hu huT huD r hr
        intro c hc
        rw [hpd] at hc
        rcases List.mem_append.mp hc with hm | hm
        · exact hWnew c hm
        · rcases List.mem_cons.mp hm with rfl | hm2
          · exact ⟨by decide, by decide⟩
          · refine h9 u hu c ?_
            rw [hr]
            exact List.mem_append_right _ (List.mem_cons_of_mem _ hm2)
      · rw [hF_U u hu huT (Bool.eq_false_iff.mpr huD)]
        exact h9 u hu


theorem countSlash_parent (p c : String) (hc : slashFree c) :
    countSlash (p ++ "/" ++ c) = countSlash p + 1 := by
  rw [countSlash_append, countSlash_append, countSlash_slash,
    countSlash_slashFree c hc]

/-- Under the invariant no other task's path can equal `task.code`
  (the new path of a task moved to the root). -/
theorem path_ne_code (s : HState) (hinv : StateInv s) (task : HTask)
    (hmem : task ∈ s) : ∀ u ∈ s, u ≠ task → u.path ≠ task.code := by
  obtain ⟨h1, h2, h3, h4, h5, h6, h7, h8, h9⟩ := hinv
  intro u hu hne heq
  cases hup : u.parent with
  | none =>
    have hupath := h7 u hu hup
    have hcode : u.code = task.code := by
      rw [← hupath]
      exact heq
    exact hne (List.inj_on_of_nodup_map h2 hu hmem hcode)
  | some q =>
    obtain ⟨y, hy, _, hyeq⟩ := h6 u hu q hup
    have hmemslash : '/' ∈ u.path.data := by
      rw [path_data_parent y u hyeq]
      exact List.mem_append_right _ (List.mem_cons_self _ _)
    rw [heq] at hmemslash
    exact h4 task hmem hmemslash

/-- Under the invariant no other task's path can equal
  `np0.path ++ "/" ++ task.code` (the new path of a moved task). -/
theorem path_ne_parent_path (s : HState) (hinv : StateInv s)
    (task np0 : HTask) (hmem : task ∈ s) : ∀ u ∈ s, u ≠ task →
    u.path ≠ np0.path ++ "/" ++ task.code := by
  obtain ⟨h1, h2, h3, h4, h5, h6, h7, h8, h9⟩ := hinv
  intro u hu hne heq
  cases hup : u.parent with
  | none =>
    have hupath := h7 u hu hup
    have hmemslash : '/' ∈ u.path.data := by
      rw [heq, data_slash_append]
      exact List.mem_append_right _ (List.mem_cons_self _ _)
    rw [hupath] at hmemslash
    exact h4 u hu hmemslash
  | some q =>
    obtain ⟨y, hy, _, hyeq⟩ := h6 u hu q hup
    have hdata : y.path.data ++ '/' :: u.code.data =
        np0.path.data ++ '/' :: task.code.data := by
      rw [← path_data_parent y u hyeq, heq, data_slash_append]
    obtain ⟨_, hcode⟩ := sep_inj y.path.data np0.path.data u.code.data
      task.code.data (h4 u hu) (h4 task hmem) hdata
    exact hne (List.inj_on_of_nodup_map h2 hu hmem (String.ext hcode))

/-- The three sequential updates of `move_task` compose to `moveF`
  (the moved task is never in its own descendant set). -/
theorem map_moveF_eval (s : HState) (tid : Nat) (np? : Option Nat)
    (task : HTask) (newLevel : Int) (newPath : String)
    (hids : (s.map (fun t => t.id)).Nodup)
    (hmem : task ∈ s) (htid : task.id = tid)
    (hwp : wildFree task.path) :
    ((updateTask (updateTask s tid (fun t => { t with parent := np? })) tid
        (fun t => { t with level := newLevel, path := newPath })).map
      (fun t => if (((s.filter (fun v => likeSlashPrefix task.path v.path)).map
          (fun v => v.id)).contains t.id) then
        { t with path := newPath ++ sliceFrom t.path task.path.data.length,
                 level := t.level + (newLevel - task.level) }
      else t))
    = s.map (moveF s tid np? task newLevel newPath) := by
  simp only [updateTask, List.map_map]
  refine List.map_congr_left ?_
  intro t ht
  simp only [Function.comp_apply]
  by_cases h : t.id = tid
  · have hnc : (((s.filter (fun v => likeSlashPrefix task.path v.path)).map
        (fun v => v.id)).contains t.id) = false := by
      cases hval : (((s.filter (fun v => likeSlashPrefix task.path v.path)).map
          (fun v => v.id)).contains t.id) with
      | false => rfl
      | true =>
        have hmm : t.id ∈ ((s.filter
            (fun v => likeSlashPrefix task.path v.path)).map
            (fun v => v.id)) := by simpa using hval
        obtain ⟨v, hvf, hvid⟩ := List.mem_map.mp hmm
        have hvmem : v ∈ s := (List.mem_filter.mp hvf).1
        have hvlike : likeSlashPrefix task.path v.path = true :=
          (List.mem_filter.mp hvf).2
        have hvt : v = task := eq_of_mem_id s hids v task hvmem hmem
          (by rw [hvid, h, ← htid])
        rw [hvt, likeSlashPrefix_self_false task.path hwp] at hvlike
        simp at hvlike
    have hbP : (t.id == tid) = true := by simp [h]
    have hnc3 : (((s.filter (fun v => likeSlashPrefix task.path v.path)).map
        (fun v => v.id)).contains
        (({ ({ t with parent := np? } : HTask) with
            level := newLevel,
            path := newPath } : HTask).id)) = false := hnc
    simp only [moveF]
    rw [if_pos hbP, if_pos hbP]
    rw [if_pos (show ((({ t with parent := np? } : HTask).id == tid) = true)
      from hbP)]
    rw [hnc3]
    rfl
  · have hbP' : ¬ ((t.id == tid) = true) := by simp [h]
    simp only [moveF]
    rw [if_neg hbP', if_neg hbP', if_neg hbP']

/-- A successful `move_task` that does not move a task under itself
  preserves the strengthened invariant. -/
theorem moveTask_inv (s : HState) (tid : Nat) (np? : Option Nat)
    (s' : HState) (hinv : StateInv s) (hgood : np? ≠ some tid)
    (h : moveTask s tid np? = .ok s') : StateInv s' := by
  obtain ⟨-, -, -, -, -, -, -, hA8, hA9⟩ := id hinv
  cases hft : findTask s tid with
  | none =>
    exfalso
    have herr : moveTask s tid np? = Except.error "Task not found" := by
      simp only [moveTask]
      rw [hft]
    rw [herr] at h
    exact Except.noConfusion h
  | some task =>
    obtain ⟨htaskmem, htaskid⟩ := findTask_some_facts s tid task hft
    cases np? with
    | none =>
      have heval : moveTask s tid none =
          Except.ok (s.map (moveF s tid none task 0 task.code)) := by
        rw [← map_moveF_eval s tid none task 0 task.code hinv.1
          htaskmem htaskid (hA9 task htaskmem)]
        simp only [moveTask]
        rw [hft]
      rw [heval] at h
      have hs' : s' = s.map (moveF s tid none task 0 task.code) :=
        (Except.ok.inj h).symm
      rw [hs']
      refine StateInv_map_moveF s tid none task 0 task.code hinv
        htaskmem htaskid ?_ ?_ (hA8 task htaskmem) ?_
      · rw [countSlash_slashFree task.code (hinv.2.2.2.1 task htaskmem)]
        rfl
      · intro u hu hne
        exact path_ne_code s hinv task htaskmem u hu hne
      · exact rfl
    | some pid =>
      have hpidne : pid ≠ tid := fun hcx => hgood (by rw [hcx])
      cases hfp : findTask s pid with
      | none =>
        exfalso
        have herr : moveTask s tid (some pid) =
            Except.error "Parent task not found" := by
          simp only [moveTask]
          rw [hft, hfp]
        rw [herr] at h
        exact Except.noConfusion h
      | some np0 =>
        obtain ⟨hnp0mem, hnpid⟩ := findTask_some_facts s pid np0 hfp
        cases hany : (taskDescendants s tid).any (fun d => d.id == pid) with
        | true =>
          exfalso
          have herr : moveTask s tid (some pid) =
              Except.error "Cannot move task: would create circular reference" := by
            simp only [moveTask]
            rw [hft, hfp, hany]
            rfl
          rw [herr] at h
          exact Except.noConfusion h
        | false =>
          have hnplike : likeSlashPrefix task.path np0.path = false := by
            cases hval : likeSlashPrefix task.path np0.path with
            | false => rfl
            | true =>
              exfalso
              have hdmem : np0 ∈ taskDescendants s tid := by
                simp only [taskDescendants]
                rw [hft]
                exact List.mem_filter.mpr ⟨hnp0mem, hval⟩
              have hc : (taskDescendants s tid).any
                  (fun d => d.id == pid) = true := by
                rw [List.any_eq_true]
                exact ⟨np0, hdmem, by simp [hnpid]⟩
              rw [hany] at hc
              simp at hc
          have hnptask : np0 ≠ task := by
            intro hcx
            apply hpidne
            rw [← hnpid, hcx]
            exact htaskid
          have hupd : findTask (updateTask s tid
              (fun t => { t with parent := some pid })) pid = some np0 := by
            rw [findTask_updateTask_ne s tid pid
              (fun t => { t with parent := some pid }) (fun t => rfl) hpidne]
            exact hfp
          have heval : moveTask s tid (some pid) = Except.ok
              (s.map (moveF s tid (some pid) task (np0.level + 1)
                (np0.path ++ "/" ++ task.code))) := by
            rw [← map_moveF_eval s tid (some pid) task (np0.level + 1)
              (np0.path ++ "/" ++ task.code) hinv.1 htaskmem htaskid
              (hA9 task htaskmem)]
            simp only [moveTask]
            rw [hft, hfp, hany, hupd]
            rfl
          rw [heval] at h
          have hs' : s' = s.map (moveF s tid (some pid) task (np0.level + 1)
              (np0.path ++ "/" ++ task.code)) := (Except.ok.inj h).symm
          rw [hs']
          refine StateInv_map_moveF s tid (some pid) task (np0.level + 1)
            (np0.path ++ "/" ++ task.code) hinv htaskmem htaskid ?_ ?_
            (wildFree_parent np0.path task.code (hA9 np0 hnp0mem)
              (hA8 task htaskmem)) ?_
          · rw [countSlash_parent np0.path task.code
              (hinv.2.2.2.1 task htaskmem)]
            rw [hinv.2.2.2.2.1 np0 hnp0mem]
            push_cast
            ring
          · intro u hu hne
            exact path_ne_parent_path s hinv task np0 htaskmem u hu hne
          · exact ⟨np0, hnp0mem, hnpid, hnptask, hnplike, rfl⟩

theorem runOp_inv (s : HState) (op : HOp) (hinv : StateInv s)
    (hgood : goodOp op) : StateInv (runOp s op) := by
  cases op with
  | create c p =>
    have hg : ∀ c', c = some c' → c' ≠ "" → slashFree c' ∧ wildFree c' := by
      intro c' hc' hne
      match c, hgood, hc' with
      | some c0, hgood, hc' =>
        obtain rfl : c0 = c' := Option.some.inj hc'
        exact hgood hne
      | none, _, hc' => exact Option.noConfusion hc'
    cases hct : createTask s c p with
    | ok s' =>
      simp only [runOp]
      rw [hct]
      exact createTask_inv s c p s' hinv hg hct
    | error e =>
      simp only [runOp]
      rw [hct]
      exact hinv
  | move t p =>
    cases hmt : moveTask s t p with
    | ok s' =>
      simp only [runOp]
      rw [hmt]
      exact moveTask_inv s t p s' hinv hgood hmt
    | error e =>
      simp only [runOp]
      rw [hmt]
      exact hinv

theorem runOps_inv (ops : List HOp) : ∀ s : HState, StateInv s →
    (∀ op ∈ ops, goodOp op) → StateInv (runOps s ops) := by
  induction ops with
  | nil =>
    intro s hinv _
    exact hinv
  | cons op ops ih =>
    intro s hinv hgood
    exact ih (runOp s op)
      (runOp_inv s op hinv (hgood op (List.mem_cons_self _ _)))
      (fun o ho => hgood o (List.mem_cons_of_mem _ ho))

theorem StateInv_nil : StateInv ([] : HState) := by
  refine ⟨?_, ?_, ?_, ?_, ?_, ?_, ?_, ?_, ?_⟩ <;> simp

theorem levelInvariant_of_StateInv (s : HState) (h : StateInv s) :
    levelInvariant s := by
  obtain ⟨h1, h2, h3, h4, h5, h6, h7, h8, h9⟩ := h
  intro t ht
  rw [splitSlash_length, h5 t ht]
  push_cast
  ring

theorem pathInvariant_of_StateInv (s : HState) (h : StateInv s) :
    pathInvariant s := by
  obtain ⟨h1, h2, h3, h4, h5, h6, h7, h8, h9⟩ := h
  intro t ht
  refine ⟨fun pid hp => h6 t ht pid hp, fun hp => ⟨h7 t ht hp, ?_⟩⟩
  rw [h5 t ht, h7 t ht hp, countSlash_slashFree t.code (h4 t ht)]
  rfl

/-- C5 counterexample: the claim is false as stated.  `create_task` accepts
  an explicit code containing `'/'` without validation; creating a single
  task with code `"A/B"` yields a root with `task_level = 0` but a path
  that splits into two segments, so `level = len(split(path, "/")) - 1`
  fails and the conjunction of the two invariants does not hold after this
  one-operation sequence.  (Codes containing LIKE metacharacters break the
  invariants as well; see `runOps_wildcard_code_corrupts_path`.) -/
theorem runOps_slash_code_violates_invariants :
    ¬ (levelInvariant (runOps [] [HOp.create (some "A/B") none]) ∧
       pathInvariant (runOps [] [HOp.create (some "A/B") none])) := by
  intro hcon
  have hl := hcon.1
  simp only [levelInvariant] at hl
  exact absurd hl (by decide)

/-- A second way the original claim fails, through SQL LIKE wildcard
  semantics: `move_task` interpolates the moved task's stored path into a
  `LIKE` pattern unescaped, so a code containing `'%'` makes the
  descendant query match unrelated rows.  Create root `"A%"` (id 1), root
  `"AB"` (id 2), `"C"` under 2 (id 3, path `"AB/C"`), then move 1 under 2:
  the rewrite pattern `'A%/%'` matches `"AB/C"`, which is rewritten to
  path `"AB/A%/C"` while its parent stays 2, so no row with id 2 satisfies
  `path == parent.path + "/" + code` for it and the path invariant is
  violated. -/
theorem runOps_wildcard_code_corrupts_path :
    ¬ pathInvariant (runOps [] [HOp.create (some "A%") none,
      HOp.create (some "AB") none, HOp.create (some "C") (some 2),
      HOp.move 1 (some 2)]) := by
  intro h
  have hmem : (⟨3, "C", some 2, 2, "AB/A%/C", 0⟩ : HTask) ∈
      runOps [] [HOp.create (some "A%") none, HOp.create (some "AB") none,
        HOp.create (some "C") (some 2), HOp.move 1 (some 2)] := by decide
  obtain ⟨p, hp, hpid, heq⟩ := (h _ hmem).1 2 rfl
  have hall : ∀ q ∈ runOps [] [HOp.create (some "A%") none,
      HOp.create (some "AB") none, HOp.create (some "C") (some 2),
      HOp.move 1 (some 2)], q.id = 2 →
      ("AB/A%/C" : String) ≠ q.path ++ "/" ++ "C" := by decide
  exact hall p hp hpid heq

/-- C5 (amended): after any sequence of CreateTask and MoveTask operations
  in which every explicitly supplied non-empty task code is a single
  literal path segment (contains none of `"/"`, `"%"`, `"_"`, so the
  interpolated LIKE patterns are literal) and no MoveTask names the moved
  task itself as the new parent, every task satisfies both invariants: its
  level equals the number of `"/"`-separated segments of its path minus
  one, and a task with a parent `p` has path `p.path ++ "/" ++ code` while
  a root task has its code as path and level `0`. -/
theorem runOps_invariants (ops : List HOp)
    (hgood : ∀ op ∈ ops, goodOp op) :
    levelInvariant (runOps [] ops) ∧ pathInvariant (runOps [] ops) := by
  have hinv := runOps_inv ops [] StateInv_nil hgood
  exact ⟨levelInvariant_of_StateInv _ hinv, pathInvariant_of_StateInv _ hinv⟩

theorem runOps_invariants_witness :
    (∀ op ∈ [HOp.create (some "A") none, HOp.create none (some 1),
        HOp.move 2 (some 1)], goodOp op) ∧
    (levelInvariant (runOps [] [HOp.create (some "A") none,
        HOp.create none (some 1), HOp.move 2 (some 1)]) ∧
     pathInvariant (runOps [] [HOp.create (some "A") none,
        HOp.create none (some 1), HOp.move 2 (some 1)])) :=
  have hg : ∀ op ∈ [HOp.create (some "A") none, HOp.create none (some 1),
      HOp.move 2 (some 1)], goodOp op := by
    intro op hop
    simp only [List.mem_cons, List.not_mem_nil, or_false] at hop
    rcases hop with rfl | rfl | rfl
    · exact fun _ => ⟨(by decide : ('/' : Char) ∉ "A".data),
        (by decide : ∀ c ∈ "A".data, c ≠ '%' ∧ c ≠ '_')⟩
    · exact trivial
    · exact (by decide : (some 1 : Option Nat) ≠ some 2)
  ⟨hg, runOps_invariants [HOp.create (some "A") none,
    HOp.create none (some 1), HOp.move 2 (some 1)] hg⟩
